import Mathlib

/-!
Verification of the SolixOS kernel memory-management core.

This file gives a shallow embedding of the memory-management code of the
repository (`src/kernel/mm.c` and `src/kernel/slab.c`) and proves or refutes
the specified properties of the heap free-list allocator (`kmalloc`/`kfree`),
the aligned-allocation wrapper (`kmalloc_aligned`/`kfree_aligned`), the
physical frame allocator (`alloc_frame`/`free_frame`), the paging layer
(`paging_init`/`map_page`) and the slab object-cache layer
(`kmem_cache_alloc`/`kmem_cache_free`/`kmem_cache_alloc_bulk`).

Machine integers: the C code runs on a 32-bit target (`uint32_t`/`size_t`
are 32 bits, pointers are 4 bytes).  Quantities are modelled as `Nat`; where
the C performs bit masking the embedding performs the identical masking on
`Nat` with an explicit reduction modulo `2 ^ 32`.  Addresses appearing in the
claims stay below `2 ^ 32` so `Nat` arithmetic agrees with the machine
arithmetic there.

The magic numbers and header checksums of the C code are maintained at every
mutation in the source (every write path ends in `update_block_checksum`), so
`verify_block_integrity` succeeds on every block reachable through the block
chain; the embedding therefore models those checks as passing and keeps the
semantically relevant `used` flag, on which the double-free check acts.
-/

namespace SolixOS

/-- `sizeof(heap_block_t)` on the 32-bit target: six 4-byte fields
(magic, size, used, next, prev, checksum). -/
def HDR : Nat := 24

/-- `KERNEL_HEAP_SIZE` from `mm.h`: 16 MB. -/
def KERNEL_HEAP_SIZE : Nat := 16 * 1024 * 1024

/-- `PAGE_SIZE` from `mm.h`. -/
def PAGE_SIZE : Nat := 4096

/-- `PAGE_ENTRIES` from `mm.h`. -/
def PAGE_ENTRIES : Nat := 1024

/-- All ones in a 32-bit word; `~x` in C is `MASK32 ^^^ x`. -/
def MASK32 : Nat := 2 ^ 32 - 1

/-- A heap block header as far as the allocation logic reads it: the payload
size and the used flag.  The `next`/`prev` links of `heap_block_t` are
represented by adjacency in a list ordered by address, which is the invariant
the C code maintains (blocks are created by splitting and destroyed by
coalescing, both address-local operations). -/
structure HeapBlock where
  size : Nat
  used : Bool
deriving DecidableEq, Repr

/-- The heap allocator state: the block chain from `heap_head` in address
order, the arena base address `kernel_heap_start`, and the `mem_stats`
counters that the claims mention. -/
structure HeapState where
  heapStart : Nat
  blocks : List HeapBlock
  fragCount : Nat
  totalAllocs : Nat
  totalFrees : Nat
  currentUsage : Nat
  peakUsage : Nat
deriving DecidableEq, Repr

/-- The fatal error conditions (`panic` calls) of the memory code. -/
inductive Panic where
  | heapCorruption
  | doubleFree
  | invalidAlignedFree
  | insufficientMemory
deriving DecidableEq, Repr

instance {ε α : Type} [DecidableEq ε] [DecidableEq α] :
    DecidableEq (Except ε α)
  | .ok a, .ok b =>
    if h : a = b then .isTrue (by rw [h]) else .isFalse (by
      intro hc; cases hc; exact h rfl)
  | .error a, .error b =>
    if h : a = b then .isTrue (by rw [h]) else .isFalse (by
      intro hc; cases hc; exact h rfl)
  | .ok _, .error _ => .isFalse (by intro hc; cases hc)
  | .error _, .ok _ => .isFalse (by intro hc; cases hc)

/-- `heap_init`: one free block spanning the arena minus one header.  The
arena base (`&__end` in the source) is a link-time constant, taken here as a
parameter. -/
def heap_init (start : Nat) : HeapState :=
  { heapStart := start
    blocks := [⟨KERNEL_HEAP_SIZE - HDR, false⟩]
    fragCount := 0
    totalAllocs := 0
    totalFrees := 0
    currentUsage := 0
    peakUsage := 0 }

/-- `size = (size + 3) & ~3; if (size < 16) size = 16;` from `kmalloc`,
with the C `size_t` addition reduced modulo `2 ^ 32`. -/
def roundSize (s : Nat) : Nat :=
  let a := ((s + 3) % 2 ^ 32) &&& (MASK32 ^^^ 3)
  if a < 16 then 16 else a

/-- The best-fit scan of `kmalloc` (`mm.c` lines 127-138): walk the chain,
remember the smallest free block of sufficient size (strictly smaller ones
replace the current best), and stop early on an exact fit.  The accumulator
carries the index and size of the best block found so far; `none` plays the
role of the initial `SIZE_MAX` best size. -/
def findBestFitGo (sz : Nat) : List HeapBlock → Nat → Option (Nat × Nat) → Option (Nat × Nat)
  | [], _, best => best
  | b :: bs, i, best =>
    let better : Bool := match best with
      | none => true
      | some p => decide (b.size < p.2)
    if b.used = false ∧ sz ≤ b.size ∧ better = true then
      if b.size = sz then some (i, sz)
      else findBestFitGo sz bs (i + 1) (some (i, b.size))
    else findBestFitGo sz bs (i + 1) best

/-- Header address of block `i` in a chain based at `start`: each earlier
block contributes a header plus its payload. -/
def blockAddr (start : Nat) : List HeapBlock → Nat → Nat
  | _, 0 => start
  | [], _ + 1 => start
  | b :: bs, i + 1 => blockAddr (start + HDR + b.size) bs i

/-- The split step of `kmalloc` (`mm.c` lines 152-177): if the chosen block
leaves more than a header plus the 16-byte minimum beyond the request, a new
free block is carved out of the tail of its payload; the chosen block is
marked used either way. -/
def splitBlock (sz : Nat) : List HeapBlock → Nat → List HeapBlock
  | [], _ => []
  | b :: rest, 0 =>
    if sz + HDR + 16 < b.size then
      ⟨sz, true⟩ :: ⟨b.size - sz - HDR, false⟩ :: rest
    else ⟨b.size, true⟩ :: rest
  | b :: rest, i + 1 => b :: splitBlock sz rest i

/-- `kmalloc` (`mm.c` lines 115-187).  Returns the payload pointer (header
address plus `HDR`) of the chosen block and the updated state; a failed
search bumps the fragmentation counter and returns `none`. -/
def kmalloc (st : HeapState) (size : Nat) : Option Nat × HeapState :=
  if size = 0 then (none, st)
  else
    match findBestFitGo (roundSize size) st.blocks 0 none with
    | none => (none, { st with fragCount := st.fragCount + 1 })
    | some q =>
      (some (blockAddr st.heapStart st.blocks q.1 + HDR),
        { st with
          blocks := splitBlock (roundSize size) st.blocks q.1
          totalAllocs := st.totalAllocs + 1
          currentUsage := st.currentUsage + roundSize size
          peakUsage := max st.peakUsage (st.currentUsage + roundSize size) })

/-- Locate the index of the block whose payload address is `ptr`
(`kfree` computes the header as `ptr - sizeof(heap_block_t)`; in the list
model this is a search for the block at that address). -/
def findBlockIdx (start : Nat) : List HeapBlock → Nat → Option Nat
  | [], _ => none
  | b :: rest, ptr =>
    if start + HDR = ptr then some 0
    else (findBlockIdx (start + HDR + b.size) rest ptr).map (· + 1)

/-- The forward-coalescing step of `kfree` (`mm.c` lines 211-222) applied to
a block `b` that has just been marked free: absorb the following block and
its header if that block is free. -/
def coalesceNext (b : HeapBlock) : List HeapBlock → List HeapBlock
  | [] => [⟨b.size, false⟩]
  | n :: rest =>
    if n.used then ⟨b.size, false⟩ :: n :: rest
    else ⟨b.size + n.size + HDR, false⟩ :: rest

/-- Free the block at index `i`: mark it free, coalesce with the next block
if free, then coalesce with the previous block if free (`mm.c` lines
206-235).  Out-of-range indices leave the chain unchanged. -/
def freeAt : List HeapBlock → Nat → List HeapBlock
  | [], _ => []
  | b :: rest, 0 => coalesceNext b rest
  | p :: rest, i + 1 =>
    match rest, i with
    | [], _ => [p]
    | b :: rest2, 0 =>
      match coalesceNext b rest2 with
      | [] => [p]
      | m :: tail =>
        if p.used then p :: m :: tail
        else ⟨p.size + m.size + HDR, false⟩ :: tail
    | _ :: _, j + 1 => p :: freeAt rest (j + 1)

/-- `kfree` (`mm.c` lines 190-240): a null pointer is a no-op; a pointer
whose header fails the integrity check is a fatal corruption (modelled by a
pointer that heads no block of the chain); a block already marked free is a
fatal double free; otherwise the block is freed, coalesced with its free
neighbours, and the statistics updated with the pre-coalesce size. -/
def kfree (st : HeapState) (ptr : Nat) : Except Panic HeapState :=
  if ptr = 0 then .ok st
  else
    match findBlockIdx st.heapStart st.blocks ptr with
    | none => .error .heapCorruption
    | some i =>
      match st.blocks.get? i with
      | none => .error .heapCorruption
      | some b =>
        if b.used = false then .error .doubleFree
        else
          .ok { st with
                blocks := freeAt st.blocks i
                totalFrees := st.totalFrees + 1
                currentUsage := st.currentUsage - b.size }

/-- A successful `kmalloc_aligned` result: the returned aligned address and
the two hidden words the source writes immediately before it — the original
block-header pointer at `aligned - 4` and the alignment at `aligned - 8`
(`mm.c` lines 398-404). -/
structure AlignedAlloc where
  aligned : Nat
  storedOriginal : Nat
  storedAlignment : Nat
deriving DecidableEq, Repr

/-- `kmalloc_aligned` (`mm.c` lines 381-407): reject a zero size, zero
alignment or non-power-of-two alignment; over-allocate by
`alignment - 1 + 8` bytes of slack; align the address past the hidden words
with the 32-bit mask `& ~(alignment - 1)`; record the original block header
address (`raw - sizeof(heap_block_t)`) and alignment in the hidden words. -/
def kmalloc_aligned (st : HeapState) (size alignment : Nat) :
    Option AlignedAlloc × HeapState :=
  if size = 0 ∨ alignment = 0 then (none, st)
  else if alignment &&& (alignment - 1) ≠ 0 then (none, st)
  else
    match kmalloc st (size + alignment - 1 + 4 + 4) with
    | (none, st') => (none, st')
    | (some raw, st') =>
      (some ⟨((raw + 4 + 4 + alignment - 1) % 2 ^ 32) &&&
          (MASK32 ^^^ (alignment - 1)), raw - HDR, alignment⟩, st')

/-- `kfree_aligned` (`mm.c` lines 410-428): check the pointer is aligned to
the recorded alignment (fatal otherwise) and free the original allocation
through the payload pointer recovered by advancing the recorded header
address by one header size. -/
def kfree_aligned (st : HeapState) (r : AlignedAlloc) : Except Panic HeapState :=
  if r.aligned % r.storedAlignment ≠ 0 then .error .invalidAlignedFree
  else kfree st (r.storedOriginal + HDR)

/-- A page-table entry as the paging code writes it: the present/rw/user
bits and the 20-bit frame number (`page_entry_t` in `mm.h`; the remaining
flag bits are never written by `map_page` and are omitted). -/
structure PageEntry where
  present : Bool
  rw : Bool
  user : Bool
  frame : Nat
deriving DecidableEq, Repr

/-- A cleared page-table entry (`map_page` zeroes fresh tables). -/
def emptyEntry : PageEntry := ⟨false, false, false, 0⟩

/-- The frame-allocator and paging state of `mm.c`: the frame bitmap (one
bit per frame, modelled as a predicate on frame indices rather than packed
32-bit words), the used-frame counter, the next-fit cursor, and the current
page directory's lazily created page tables, indexed by directory slot. -/
structure PagingState where
  totalFrames : Nat
  frameBitmap : Nat → Bool
  usedFrames : Nat
  lastAllocFrame : Nat
  tables : Nat → Option (Nat → PageEntry)

/-- The state with a cleared bitmap and no page tables — the configuration
`paging_init` establishes before identity-mapping (bitmap allocated from the
heap and zeroed, `used_frames = 0`, `last_alloc_frame = 0`). -/
def initFrames (total : Nat) : PagingState :=
  { totalFrames := total
    frameBitmap := fun _ => false
    usedFrames := 0
    lastAllocFrame := 0
    tables := fun _ => none }

/-- `map_page` (`mm.c` lines 335-364): locate the directory slot and entry
for the virtual address, create a zeroed table on first touch, and write the
entry's frame number (`phys_addr >> 12`) and present/rw/user bits from the
low three flag bits.  The hardware TLB invalidation is a no-op on this
state.  The frame bitmap is not consulted or modified. -/
def map_page (st : PagingState) (virt_addr phys_addr flags : Nat) : PagingState :=
  { st with
    tables := fun t =>
      if t = virt_addr / PAGE_SIZE / PAGE_ENTRIES then
        some (fun e =>
          if e = virt_addr / PAGE_SIZE % PAGE_ENTRIES then
            ⟨(flags &&& 1) != 0, (flags &&& 2) != 0, (flags &&& 4) != 0,
              phys_addr >>> 12⟩
          else ((st.tables (virt_addr / PAGE_SIZE / PAGE_ENTRIES)).getD
            (fun _ => emptyEntry)) e)
      else st.tables t }

/-- The page-table entry installed for directory slot `ti`, entry `ei`. -/
def entryAt (st : PagingState) (ti ei : Nat) : Option PageEntry :=
  (st.tables ti).map (fun t => t ei)

/-- `paging_init` (`mm.c` lines 243-300): reject less than 4 MB, size the
bitmap at one bit per frame and clear it, then identity-map the first 4 MB
(1024 pages) with flags 0x03 (present + writable).  The heap allocations for
the bitmap and directory and the CR0/CR3 manipulation do not affect the
modelled state. -/
def paging_init (mem_size : Nat) : Except Panic PagingState :=
  if mem_size < 4 * 1024 * 1024 then .error .insufficientMemory
  else
    .ok ((List.range 1024).foldl
      (fun st i => map_page st (i * PAGE_SIZE) (i * PAGE_SIZE) 3)
      (initFrames (mem_size / PAGE_SIZE)))

/-- The next-fit scan of `alloc_frame` (`mm.c` lines 307-318): try
`total_frames` positions starting at the last allocation cursor, wrapping
modulo the frame count, and return the first clear bit's frame index. -/
def scanClear (bm : Nat → Bool) (total start : Nat) : Nat → Nat → Option Nat
  | 0, _ => none
  | fuel + 1, i =>
    if bm ((start + i) % total) = false then some ((start + i) % total)
    else scanClear bm total start fuel (i + 1)

/-- `alloc_frame` (`mm.c` lines 303-321) at the frame-index level: find a
clear bit next-fit, set it, bump `used_frames`, move the cursor. -/
def alloc_frame (st : PagingState) : Option Nat × PagingState :=
  match scanClear st.frameBitmap st.totalFrames st.lastAllocFrame
      st.totalFrames 0 with
  | none => (none, st)
  | some fi =>
    (some fi,
      { st with
        frameBitmap := fun j => if j = fi then true else st.frameBitmap j
        usedFrames := st.usedFrames + 1
        lastAllocFrame := fi })

/-- `alloc_frame` at the address level, exactly as the C returns it: frame
index times `PAGE_SIZE` on success and the null pointer `0` on
exhaustion. -/
def alloc_frame_addr (st : PagingState) : Nat × PagingState :=
  match alloc_frame st with
  | (none, st') => (0, st')
  | (some fi, st') => (fi * PAGE_SIZE, st')

/-- `free_frame` (`mm.c` lines 324-332): clear the addressed frame's bit
and decrement `used_frames`; no validation is performed. -/
def free_frame (st : PagingState) (frame_addr : Nat) : PagingState :=
  { st with
    frameBitmap := fun j =>
      if j = frame_addr / PAGE_SIZE then false else st.frameBitmap j
    usedFrames := st.usedFrames - 1 }

/-- Number of set bits in the frame bitmap (the C packs them into 32-bit
words; the count is over frame indices). -/
def countSetBits (st : PagingState) : Nat :=
  (List.range st.totalFrames).countP (fun i => st.frameBitmap i)

/-- An allocator call in a frame-allocator trace: an allocation, or the
release of the frame with the given index. -/
inductive FrameOp where
  | alloc
  | free (idx : Nat)

/-- Run a trace of frame-allocator operations, tracking the list of
currently allocated (not yet freed) frame indices as a ghost.  Frees are
applied only to currently allocated frames, which is the side condition of
the claim (`free_frame` performs no validation of its own). -/
def runFrameOps : PagingState → List Nat → List FrameOp → PagingState × List Nat
  | st, ghost, [] => (st, ghost)
  | st, ghost, .alloc :: ops =>
    match alloc_frame st with
    | (none, st') => runFrameOps st' ghost ops
    | (some fi, st') => runFrameOps st' (fi :: ghost) ops
  | st, ghost, .free i :: ops =>
    if i ∈ ghost then
      runFrameOps (free_frame st (i * PAGE_SIZE)) (ghost.erase i) ops
    else runFrameOps st ghost ops

/-- The frame-allocator invariant: the ghost list of allocated frames has no
duplicates, lies below the frame count, matches the bitmap exactly (set bit
iff allocated), bits past the frame count stay clear, and `used_frames`
counts the allocated frames. -/
def FrameInv (st : PagingState) (ghost : List Nat) : Prop :=
  ghost.Nodup ∧
  (∀ i ∈ ghost, i < st.totalFrames) ∧
  (∀ i, i < st.totalFrames → (st.frameBitmap i = true ↔ i ∈ ghost)) ∧
  (∀ i, st.totalFrames ≤ i → st.frameBitmap i = false) ∧
  st.usedFrames = ghost.length

/-- A slab (`struct slab` in `slab.h`) as the cache-management logic reads
it: a stable identity standing for the slab's backing address, the in-use
object count (`inuse`) and the length of the embedded free-object list.
`objects` equals the cache's `num` for every slab the cache creates. -/
structure Slab where
  id : Nat
  inuse : Nat
  flen : Nat
deriving DecidableEq, Repr

/-- A `kmem_cache_t` restricted to one cache: the objects-per-slab count
`num`, the three slab lists (full, partial, free — `slabs_partial` is
shortened to `slabsPart` here), a counter producing fresh slab identities, a
budget of backing-page allocations the underlying allocator can still
satisfy (modelling `kmalloc_aligned` failure inside `alloc_slab`), and the
`errors`/`active` statistics. -/
structure CacheState where
  num : Nat
  nextId : Nat
  slabsFull : List Slab
  slabsPart : List Slab
  slabsFree : List Slab
  growBudget : Nat
  errors : Nat
  active : Nat
deriving DecidableEq, Repr

/-- An empty cache as `kmem_cache_create` initialises it (all three lists
empty), with the given objects-per-slab count and backing budget. -/
def initCache (num budget : Nat) : CacheState :=
  { num := num, nextId := 0, slabsFull := [], slabsPart := [],
    slabsFree := [], growBudget := budget, errors := 0, active := 0 }

/-- `cache_grow` via `alloc_slab` (`slab.c` lines 87-188): a fresh slab with
`inuse = 0` and a full freelist, placed at the head of the free list (the
`inuse == 0` branch of `cache_grow`); fails when the backing allocator
cannot supply pages. -/
def cache_grow (st : CacheState) : Option CacheState :=
  if st.growBudget = 0 then none
  else some { st with
    growBudget := st.growBudget - 1
    nextId := st.nextId + 1
    slabsFree := ⟨st.nextId, 0, st.num⟩ :: st.slabsFree }

/-- The common tail of `kmem_cache_alloc` (`slab.c` lines 315-349) applied
to the chosen slab `s` (the head of the partial list when `fromPart`, of the
free list otherwise, with `rest` the remainder of that list): a null
freelist is an error; otherwise pop an object, bump `inuse`, and move the
slab to the full list when it just filled or to the partial list when it
just left the free list, leaving it in place otherwise. -/
def allocFrom (st : CacheState) (s : Slab) (fromPart : Bool)
    (rest : List Slab) : Option Nat × CacheState :=
  if s.flen = 0 then (none, { st with errors := st.errors + 1 })
  else if fromPart then
    if s.inuse + 1 = st.num then
      (some s.id, { st with
        slabsPart := rest
        slabsFull := ⟨s.id, s.inuse + 1, s.flen - 1⟩ :: st.slabsFull
        active := st.active + 1 })
    else
      (some s.id, { st with
        slabsPart := ⟨s.id, s.inuse + 1, s.flen - 1⟩ :: rest
        active := st.active + 1 })
  else
    if s.inuse + 1 = st.num then
      (some s.id, { st with
        slabsFree := rest
        slabsFull := ⟨s.id, s.inuse + 1, s.flen - 1⟩ :: st.slabsFull
        active := st.active + 1 })
    else if s.inuse + 1 = 1 then
      (some s.id, { st with
        slabsFree := rest
        slabsPart := ⟨s.id, s.inuse + 1, s.flen - 1⟩ :: st.slabsPart
        active := st.active + 1 })
    else
      (some s.id, { st with
        slabsFree := ⟨s.id, s.inuse + 1, s.flen - 1⟩ :: rest
        active := st.active + 1 })

/-- `kmem_cache_alloc` (`slab.c` lines 289-350): prefer the head of the
partial list, then the head of the free list, else grow the cache and take
the freshly added free slab; growth failure is an error.  The returned
object is identified by its slab (each popped object comes off that slab's
freelist). -/
def kmem_cache_alloc (st : CacheState) : Option Nat × CacheState :=
  match st.slabsPart with
  | s :: rest => allocFrom st s true rest
  | [] =>
    match st.slabsFree with
    | s :: rest => allocFrom st s false rest
    | [] =>
      match cache_grow st with
      | none => (none, { st with errors := st.errors + 1 })
      | some st2 =>
        match st2.slabsFree with
        | s :: rest => allocFrom st2 s false rest
        | [] => (none, { st2 with errors := st2.errors + 1 })

/-- Find the slab with the given identity. -/
def lookupId : List Slab → Nat → Option Slab
  | [], _ => none
  | s :: rest, i => if s.id = i then some s else lookupId rest i

/-- Remove the first slab with the given identity (`list_del`). -/
def removeId : List Slab → Nat → List Slab
  | [], _ => []
  | s :: rest, i => if s.id = i then rest else s :: removeId rest i

/-- Replace the first slab carrying `s'.id` by `s'`, in place. -/
def replaceId : List Slab → Slab → List Slab
  | [], _ => []
  | s :: rest, s' => if s.id = s'.id then s' :: rest else s :: replaceId rest s'

/-- All slabs of the cache, across the three lists. -/
def allSlabs (st : CacheState) : List Slab :=
  st.slabsFull ++ st.slabsPart ++ st.slabsFree

/-- `kmem_cache_free` (`slab.c` lines 355-394): locate the owning slab
(the C masks the object address; here the object is identified by its
slab's identity), push the object back, decrement `inuse`, and move the
slab to the free list when it just emptied or to the partial list when it
just left the full list, leaving it in place otherwise.  An object whose
slab cannot be found, or whose slab has no objects out, makes the C panic
on the magic check or corrupt the count; such calls are outside the claimed
traces and leave the model state unchanged. -/
def kmem_cache_free (st : CacheState) (oid : Nat) : CacheState :=
  match lookupId (allSlabs st) oid with
  | none => st
  | some s =>
    if s.inuse = 0 then st
    else if s.inuse - 1 = 0 then
      { st with
        slabsFull := removeId st.slabsFull oid
        slabsPart := removeId st.slabsPart oid
        slabsFree := ⟨s.id, s.inuse - 1, s.flen + 1⟩ :: removeId st.slabsFree oid
        active := st.active - 1 }
    else if s.inuse - 1 = st.num - 1 then
      { st with
        slabsFull := removeId st.slabsFull oid
        slabsPart := ⟨s.id, s.inuse - 1, s.flen + 1⟩ :: removeId st.slabsPart oid
        slabsFree := removeId st.slabsFree oid
        active := st.active - 1 }
    else
      { st with
        slabsFull := replaceId st.slabsFull ⟨s.id, s.inuse - 1, s.flen + 1⟩
        slabsPart := replaceId st.slabsPart ⟨s.id, s.inuse - 1, s.flen + 1⟩
        slabsFree := replaceId st.slabsFree ⟨s.id, s.inuse - 1, s.flen + 1⟩
        active := st.active - 1 }

/-- A cache call in a trace: an allocation, or the release of an object of
the slab with the given identity. -/
inductive CacheOp where
  | alloc
  | free (oid : Nat)

/-- Run a trace of cache operations. -/
def runCacheOps : CacheState → List CacheOp → CacheState
  | st, [] => st
  | st, .alloc :: ops => runCacheOps (kmem_cache_alloc st).2 ops
  | st, .free oid :: ops => runCacheOps (kmem_cache_free st oid) ops

/-- Total number of live (allocated) objects across all slabs. -/
def totalInuse (st : CacheState) : Nat :=
  ((allSlabs st).map Slab.inuse).sum

/-- Number of live objects on the slab with the given identity (summed so
it is insensitive to which list holds the slab; with distinct identities it
is that slab's `inuse`, and `0` for an unknown identity). -/
def inuseOf (st : CacheState) (oid : Nat) : Nat :=
  (((allSlabs st).filter (fun s => s.id == oid)).map Slab.inuse).sum

/-- The slab-classification invariant of the cache: `num` is positive,
membership of the three lists is determined by the in-use count exactly as
the state machine states (full ↔ `inuse = num`, partial ↔ `0 < inuse <
num`, free ↔ `inuse = 0`), in-use plus freelist length is `num` on every
slab, and slab identities are distinct across the three lists (every slab
is on exactly one list) and below the freshness counter. -/
def CacheInv (st : CacheState) : Prop :=
  1 ≤ st.num ∧
  (∀ s ∈ st.slabsFull, s.inuse = st.num) ∧
  (∀ s ∈ st.slabsPart, 0 < s.inuse ∧ s.inuse < st.num) ∧
  (∀ s ∈ st.slabsFree, s.inuse = 0) ∧
  (∀ s ∈ allSlabs st, s.inuse + s.flen = st.num) ∧
  ((allSlabs st).map Slab.id).Nodup ∧
  (∀ s ∈ allSlabs st, s.id < st.nextId)

instance (st : CacheState) : Decidable (CacheInv st) :=
  decidable_of_iff
    (1 ≤ st.num ∧
      (∀ s ∈ st.slabsFull, s.inuse = st.num) ∧
      (∀ s ∈ st.slabsPart, 0 < s.inuse ∧ s.inuse < st.num) ∧
      (∀ s ∈ st.slabsFree, s.inuse = 0) ∧
      (∀ s ∈ allSlabs st, s.inuse + s.flen = st.num) ∧
      ((allSlabs st).map Slab.id).Nodup ∧
      (∀ s ∈ allSlabs st, s.id < st.nextId)) Iff.rfl

/-- Free the accumulated objects, most recently allocated first — the
`while (i--) kmem_cache_free(cachep, p[i]);` rollback loop of
`kmem_cache_alloc_bulk`. -/
def rollbackFree : CacheState → List Nat → CacheState
  | st, [] => st
  | st, oid :: rest => rollbackFree (kmem_cache_free st oid) rest

/-- `kmem_cache_alloc_bulk` (`slab.c` lines 399-415): allocate `n` objects
one at a time, accumulating them (most recent first); on any failure free
everything already obtained and report failure. -/
def kmem_cache_alloc_bulk (st : CacheState) :
    Nat → List Nat → Option (List Nat) × CacheState
  | 0, acc => (some acc, st)
  | n + 1, acc =>
    match kmem_cache_alloc st with
    | (some oid, st') => kmem_cache_alloc_bulk st' n (oid :: acc)
    | (none, st') => (none, rollbackFree st' acc)

/-- Every identity in the list has at most as many pending frees as live
objects — the well-formedness of a rollback list. -/
def CanFree (st : CacheState) (acc : List Nat) : Prop :=
  ∀ oid, acc.count oid ≤ inuseOf st oid

/-- No two address-adjacent blocks of the chain are both free. -/
def noAdjFree (bs : List HeapBlock) : Prop :=
  List.Chain' (fun a b => a.used = true ∨ b.used = true) bs

instance noAdjFreeDec : (bs : List HeapBlock) → Decidable (noAdjFree bs)
  | [] => .isTrue List.chain'_nil
  | [b] => .isTrue (List.chain'_singleton b)
  | a :: b :: rest =>
    have _ih := noAdjFreeDec (b :: rest)
    decidable_of_iff ((a.used = true ∨ b.used = true) ∧ noAdjFree (b :: rest))
      (by
        unfold noAdjFree
        exact (@List.chain'_cons HeapBlock
          (fun x y => x.used = true ∨ y.used = true) a b rest).symm)

/-! ### The 32-bit mask bridge

`x & ~(2^k - 1)` on a 32-bit word clears the low `k` bits, which on values
below `2 ^ 32` is exactly `x - x % 2 ^ k`. -/

theorem and_mask32_not (x k : Nat) (hk : k ≤ 32) (hx : x < 2 ^ 32) :
    x &&& (MASK32 ^^^ (2 ^ k - 1)) = x - x % 2 ^ k := by
  have hdm := Nat.div_add_mod x (2 ^ k)
  have hsub : x - x % 2 ^ k = 2 ^ k * (x / 2 ^ k) := by omega
  rw [hsub]
  apply Nat.eq_of_testBit_eq
  intro i
  rw [Nat.testBit_and, Nat.testBit_xor, MASK32, Nat.testBit_two_pow_sub_one,
    Nat.testBit_two_pow_sub_one, Nat.testBit_mul_pow_two]
  by_cases h1 : i < k
  · have h2 : i < 32 := lt_of_lt_of_le h1 hk
    simp [h1, h2, Nat.not_le.mpr h1]
  · by_cases h2 : i < 32
    · have hdiv : x / 2 ^ k = x >>> k := (Nat.shiftRight_eq_div_pow x k).symm
      rw [hdiv, Nat.testBit_shiftRight, show k + (i - k) = i by omega]
      simp [h1, h2, Nat.le_of_not_lt h1]
    · have hxi : x.testBit i = false := by
        apply Nat.testBit_lt_two_pow
        exact lt_of_lt_of_le hx (Nat.pow_le_pow_right (by norm_num) (by omega))
      have hdiv : x / 2 ^ k = x >>> k := (Nat.shiftRight_eq_div_pow x k).symm
      rw [hdiv, Nat.testBit_shiftRight, show k + (i - k) = i by omega]
      simp [hxi, h2]

/-- The rounding of `kmalloc` equals rounding up to a 4-byte multiple with a
16-byte floor (the form the specification states), for sizes that do not
overflow the 32-bit addition. -/
theorem roundSize_eq (s : Nat) (h : s + 3 < 2 ^ 32) :
    roundSize s = max 16 ((s + 3) / 4 * 4) := by
  unfold roundSize
  have hb := and_mask32_not (s + 3) 2 (by norm_num) h
  norm_num at hb
  rw [Nat.mod_eq_of_lt h, hb]
  have hdm := Nat.div_add_mod (s + 3) 4
  have hm : (s + 3) % 4 < 4 := Nat.mod_lt _ (by norm_num)
  have : s + 3 - (s + 3) % 4 = (s + 3) / 4 * 4 := by omega
  rw [this]
  rcases Nat.lt_or_ge ((s + 3) / 4 * 4) 16 with hlt | hge
  · simp [hlt, Nat.max_eq_left (le_of_lt hlt)]
  · simp [Nat.not_lt.mpr hge, Nat.max_eq_right hge]

/-! ### Characterization of the best-fit scan -/

/-- If no free block is large enough, the scan started with an empty
accumulator returns nothing. -/
theorem findBestFitGo_eq_none (sz : Nat) :
    ∀ (bs : List HeapBlock) (i : Nat),
      (∀ b ∈ bs, b.used = true ∨ b.size < sz) →
      findBestFitGo sz bs i none = none := by
  intro bs
  induction bs with
  | nil => intro i _; rfl
  | cons b bs ih =>
    intro i hq
    have hb := hq b (List.mem_cons_self b bs)
    simp only [findBestFitGo]
    rw [if_neg]
    · exact ih (i + 1) fun x hx => hq x (List.mem_cons_of_mem b hx)
    · rintro ⟨h1, h2, -⟩
      rcases hb with h | h
      · rw [h1] at h; cases h
      · omega

/-- A scan that comes back empty started empty and saw no qualifying
block. -/
theorem findBestFitGo_none_spec (sz : Nat) :
    ∀ (bs : List HeapBlock) (i : Nat) (best : Option (Nat × Nat)),
      findBestFitGo sz bs i best = none →
      best = none ∧ ∀ b ∈ bs, b.used = true ∨ b.size < sz := by
  intro bs
  induction bs with
  | nil =>
    intro i best h
    exact ⟨h, by simp⟩
  | cons b bs ih =>
    intro i best h
    simp only [findBestFitGo] at h
    split at h
    · split at h
      · cases h
      · rcases ih (i + 1) (some (i, b.size)) h with ⟨h1, -⟩
        cases h1
    · rename_i hc
      rcases ih (i + 1) best h with ⟨h1, h2⟩
      refine ⟨h1, fun x hx => ?_⟩
      rcases List.mem_cons.mp hx with rfl | hx
      · subst h1
        by_cases hu : x.used = true
        · exact Or.inl hu
        · right
          by_contra hlt
          simp only [Bool.not_eq_true] at hu
          exact hc ⟨hu, by omega, rfl⟩
      · exact h2 x hx

/-- A successful scan returns a free block of sufficient size that is
no larger than any qualifying block (and than the accumulator), and that
block is the accumulator itself or lies in the scanned chain. -/
theorem findBestFitGo_some_spec (sz : Nat) :
    ∀ (bs : List HeapBlock) (i : Nat) (best : Option (Nat × Nat)) (q : Nat × Nat),
      (∀ p, best = some p → sz ≤ p.2) →
      findBestFitGo sz bs i best = some q →
      sz ≤ q.2 ∧
      (best = some q ∨
        ∃ k, ∃ hk : k < bs.length, q.1 = i + k ∧ bs.get ⟨k, hk⟩ = ⟨q.2, false⟩) ∧
      (∀ b ∈ bs, b.used = false → sz ≤ b.size → q.2 ≤ b.size) ∧
      (∀ p, best = some p → q.2 ≤ p.2) := by
  intro bs
  induction bs with
  | nil =>
    intro i best q hacc h
    simp only [findBestFitGo] at h
    subst h
    refine ⟨hacc q rfl, Or.inl rfl, by simp, fun p hp => ?_⟩
    rw [Option.some.inj hp]
  | cons b bs ih =>
    intro i best q hacc h
    simp only [findBestFitGo] at h
    split at h
    · rename_i hc
      split at h
      · rename_i hex
        have hq : q = (i, sz) := (Option.some.inj h).symm
        subst hq
        refine ⟨le_refl _, Or.inr ⟨0, by simp, by simp, ?_⟩,
          fun x _ _ hsx => hsx, fun p hp => hacc p hp⟩
        cases b with
        | mk bsz bu =>
          simp only [List.get]
          simp only at hex
          rcases hc with ⟨hu, -, -⟩
          simp only at hu
          rw [hex, hu]
      · rename_i hex
        have hacc2 : ∀ p, some (i, b.size) = some p → sz ≤ p.2 := by
          intro p hp
          rw [← Option.some.inj hp]
          exact hc.2.1
        rcases ih (i + 1) (some (i, b.size)) q hacc2 h with ⟨h1, h2, h3, h4⟩
        have hqb : q.2 ≤ b.size := h4 (i, b.size) rfl
        refine ⟨h1, ?_, ?_, ?_⟩
        · rcases h2 with h2 | ⟨k, hk, hik, hget⟩
          · have hq : q = (i, b.size) := (Option.some.inj h2).symm
            refine Or.inr ⟨0, by simp, by simp [hq], ?_⟩
            cases b with
            | mk bsz bu =>
              simp only [List.get]
              rcases hc with ⟨hu, -, -⟩
              simp only at hu
              rw [hq, hu]
          · exact Or.inr ⟨k + 1, by simpa using Nat.succ_lt_succ hk,
              by omega, by simpa using hget⟩
        · intro x hx hxu hxs
          rcases List.mem_cons.mp hx with rfl | hx
          · exact hqb
          · exact h3 x hx hxu hxs
        · intro p hp
          rcases hc with ⟨-, -, hbetter⟩
          rw [hp] at hbetter
          simp only [decide_eq_true_eq] at hbetter
          exact le_of_lt (lt_of_le_of_lt hqb hbetter)
    · rename_i hc
      rcases ih (i + 1) best q hacc h with ⟨h1, h2, h3, h4⟩
      refine ⟨h1, ?_, ?_, h4⟩
      · rcases h2 with h2 | ⟨k, hk, hik, hget⟩
        · exact Or.inl h2
        · exact Or.inr ⟨k + 1, by simpa using Nat.succ_lt_succ hk,
            by omega, by simpa using hget⟩
      · intro x hx hxu hxs
        rcases List.mem_cons.mp hx with rfl | hx
        · rcases hbest : best with - | p
          · subst hbest
            exact absurd ⟨hxu, hxs, rfl⟩ hc
          · subst hbest
            have hp2 : p.2 ≤ x.size := by
              by_contra hlt
              exact hc ⟨hxu, hxs, by simpa using by omega⟩
            exact le_trans (h4 p rfl) hp2
        · exact h3 x hx hxu hxs

/-! ### Preservation of the coalescing invariant -/

theorem coalesceNext_ne_nil (b : HeapBlock) (rest : List HeapBlock) :
    coalesceNext b rest ≠ [] := by
  cases rest with
  | nil => simp [coalesceNext]
  | cons n rest2 =>
    simp only [coalesceNext]
    split <;> simp

theorem coalesceNext_chain (b : HeapBlock) (rest : List HeapBlock)
    (h : noAdjFree rest) : noAdjFree (coalesceNext b rest) := by
  cases rest with
  | nil => simp [coalesceNext, noAdjFree]
  | cons n rest2 =>
    simp only [coalesceNext]
    split
    · rename_i hn
      unfold noAdjFree at h ⊢
      rw [List.chain'_cons]
      exact ⟨Or.inr hn, h⟩
    · rename_i hn
      unfold noAdjFree at h ⊢
      rw [List.chain'_cons'] at h ⊢
      refine ⟨fun y hy => ?_, h.2⟩
      rcases h.1 y hy with hny | hyu
      · exact absurd hny hn
      · exact Or.inr hyu

/-- The block after the (possibly merged) freed block is used. -/
theorem coalesceNext_tail_head (b : HeapBlock) (rest : List HeapBlock)
    (h : noAdjFree rest) :
    ∀ x ∈ (coalesceNext b rest).tail.head?, x.used = true := by
  cases rest with
  | nil => simp [coalesceNext]
  | cons n rest2 =>
    simp only [coalesceNext]
    split
    · rename_i hn
      intro x hx
      simp only [List.tail_cons, List.head?_cons, Option.mem_def,
        Option.some.injEq] at hx
      rw [← hx]; exact hn
    · rename_i hn
      intro x hx
      simp only [List.tail_cons] at hx
      unfold noAdjFree at h
      rw [List.chain'_cons'] at h
      rcases h.1 x hx with hnu | hxu
      · exact absurd hnu hn
      · exact hxu

/-- Unfolding equation: freeing at index 1 acts through the second block. -/
theorem freeAt_cons_one (p b : HeapBlock) (rest2 : List HeapBlock)
    (m : HeapBlock) (tail : List HeapBlock)
    (hcn : coalesceNext b rest2 = m :: tail) :
    freeAt (p :: b :: rest2) 1 =
      if p.used then p :: m :: tail
      else ⟨p.size + m.size + HDR, false⟩ :: tail := by
  simp only [freeAt]
  rw [hcn]

/-- Unfolding equation: freeing at an index past the second block recurses
below the head. -/
theorem freeAt_cons_succ (p b : HeapBlock) (rest2 : List HeapBlock) (j : Nat) :
    freeAt (p :: b :: rest2) (j + 2) = p :: freeAt (b :: rest2) (j + 1) :=
  rfl

/-- Freeing at a positive index leaves the used-flag of the head block
unchanged (only its size can change, by absorbing the freed neighbour). -/
theorem freeAt_head_used (bs : List HeapBlock) (j : Nat) :
    ((freeAt bs (j + 1)).head?).map HeapBlock.used =
      (bs.head?).map HeapBlock.used := by
  cases bs with
  | nil => rfl
  | cons p rest =>
    cases rest with
    | nil => simp [freeAt]
    | cons b rest2 =>
      cases j with
      | zero =>
        rcases hcn : coalesceNext b rest2 with - | ⟨m, tail⟩
        · exact absurd hcn (coalesceNext_ne_nil b rest2)
        · rw [freeAt_cons_one p b rest2 m tail hcn]
          by_cases hp : p.used
          · simp [hp]
          · simp only [Bool.not_eq_true] at hp
            simp [hp]
      | succ j2 =>
        rw [freeAt_cons_succ]
        simp

theorem freeAt_chain : ∀ (bs : List HeapBlock) (i : Nat),
    noAdjFree bs → noAdjFree (freeAt bs i) := by
  intro bs
  induction bs with
  | nil => intro i _; simp [freeAt, noAdjFree]
  | cons p rest ih =>
    intro i h
    have htail : noAdjFree rest := by
      unfold noAdjFree at h ⊢
      exact (List.chain'_cons'.mp h).2
    cases i with
    | zero => exact coalesceNext_chain p rest htail
    | succ j =>
      cases rest with
      | nil => simp [freeAt, noAdjFree]
      | cons b rest2 =>
        have htail2 : noAdjFree rest2 := by
          unfold noAdjFree at htail ⊢
          exact (List.chain'_cons'.mp htail).2
        cases j with
        | zero =>
          rcases hcn : coalesceNext b rest2 with - | ⟨m, tail⟩
          · exact absurd hcn (coalesceNext_ne_nil b rest2)
          · rw [freeAt_cons_one p b rest2 m tail hcn]
            have hcc : noAdjFree (m :: tail) := by
              rw [← hcn]; exact coalesceNext_chain b rest2 htail2
            have htl : ∀ x ∈ tail.head?, x.used = true := by
              intro x hx
              apply coalesceNext_tail_head b rest2 htail2
              rw [hcn]; simp [hx]
            by_cases hp : p.used
            · rw [if_pos hp]
              unfold noAdjFree at hcc ⊢
              rw [List.chain'_cons']
              exact ⟨fun y _ => Or.inl hp, hcc⟩
            · rw [if_neg hp]
              unfold noAdjFree at hcc ⊢
              rw [List.chain'_cons']
              refine ⟨fun y hy => Or.inr (htl y hy), ?_⟩
              rw [List.chain'_cons'] at hcc
              exact hcc.2
        | succ j2 =>
          have hrec := ih (j2 + 1) htail
          unfold noAdjFree at hrec ⊢
          rw [freeAt_cons_succ, List.chain'_cons']
          refine ⟨fun y hy => ?_, hrec⟩
          have hhead := freeAt_head_used (b :: rest2) j2
          unfold noAdjFree at h
          rw [List.chain'_cons'] at h
          rcases hh : (freeAt (b :: rest2) (j2 + 1)).head? with - | z
          · rw [hh] at hy
            simp at hy
          · rw [hh] at hy
            simp only [Option.mem_def, Option.some.injEq] at hy
            subst hy
            rw [hh] at hhead
            simp only [List.head?_cons, Option.map_some] at hhead
            rcases h.1 b (by simp) with hpu | hbu
            · exact Or.inl hpu
            · right
              have hsome : some z.used = some b.used := by simpa using hhead
              rw [Option.some.inj hsome, hbu]

/-- Splitting a free block keeps adjacent free blocks apart: the head part
is marked used and the carved-out free remainder borders the used head on
one side and the old (necessarily used) neighbour on the other. -/
theorem splitBlock_chain (sz : Nat) :
    ∀ (bs : List HeapBlock) (i : Nat) (bi : HeapBlock),
      bs.get? i = some bi → bi.used = false →
      noAdjFree bs → noAdjFree (splitBlock sz bs i) := by
  intro bs
  induction bs with
  | nil => intro i bi hget _ _; cases hget
  | cons b rest ih =>
    intro i bi hget hbu h
    have htail : noAdjFree rest := by
      unfold noAdjFree at h ⊢
      exact (List.chain'_cons'.mp h).2
    cases i with
    | zero =>
      have hb : b = bi := by simpa using hget
      subst hb
      simp only [splitBlock]
      by_cases hs : sz + HDR + 16 < b.size
      · rw [if_pos hs]
        unfold noAdjFree at h ⊢
        rw [List.chain'_cons, List.chain'_cons']
        refine ⟨Or.inl rfl, fun y hy => ?_, htail⟩
        rcases (List.chain'_cons'.mp h).1 y hy with hby | hyu
        · rw [hbu] at hby; cases hby
        · exact Or.inr hyu
      · rw [if_neg hs]
        unfold noAdjFree at h ⊢
        rw [List.chain'_cons']
        exact ⟨fun y _ => Or.inl rfl, htail⟩
    | succ j =>
      simp only [splitBlock]
      have hget2 : rest.get? j = some bi := by simpa using hget
      have hrec := ih j bi hget2 hbu htail
      unfold noAdjFree at h hrec ⊢
      rw [List.chain'_cons']
      refine ⟨fun y hy => ?_, hrec⟩
      cases rest with
      | nil => cases hget2
      | cons c rest2 =>
        cases j with
        | zero =>
          have hc : c = bi := by simpa using hget2
          subst hc
          simp only [splitBlock] at hy
          by_cases hs : sz + HDR + 16 < c.size
          · rw [if_pos hs] at hy
            simp only [List.head?_cons, Option.mem_def, Option.some.injEq] at hy
            rw [← hy]
            exact Or.inr rfl
          · rw [if_neg hs] at hy
            simp only [List.head?_cons, Option.mem_def, Option.some.injEq] at hy
            rw [← hy]
            exact Or.inr rfl
        | succ j2 =>
          simp only [splitBlock, List.head?_cons, Option.mem_def,
            Option.some.injEq] at hy
          rw [← hy]
          exact (List.chain'_cons'.mp h).1 c (by simp)

/-- `kmalloc` preserves the no-adjacent-free-blocks invariant. -/
theorem kmalloc_noAdjFree (st : HeapState) (s : Nat)
    (h : noAdjFree st.blocks) : noAdjFree ((kmalloc st s).2).blocks := by
  unfold kmalloc
  by_cases hz : s = 0
  · simpa [hz]
  · rw [if_neg hz]
    rcases hbf : findBestFitGo (roundSize s) st.blocks 0 none with - | q
    · simpa using h
    · simp only
      rcases findBestFitGo_some_spec (roundSize s) st.blocks 0 none q
          (by intro p hp; cases hp) hbf with ⟨-, hmem, -, -⟩
      rcases hmem with hmem | ⟨k, hk, hik, hget⟩
      · cases hmem
      · have hik0 : q.1 = k := by omega
        subst hik0
        have hget? : st.blocks.get? q.1 = some ⟨q.2, false⟩ := by
          rw [List.get?_eq_get hk, hget]
        exact splitBlock_chain (roundSize s) st.blocks q.1 ⟨q.2, false⟩
          hget? rfl h

/-- `kfree` preserves the no-adjacent-free-blocks invariant. -/
theorem kfree_noAdjFree (st : HeapState) (ptr : Nat) (st' : HeapState)
    (h : noAdjFree st.blocks) (hok : kfree st ptr = .ok st') :
    noAdjFree st'.blocks := by
  unfold kfree at hok
  split at hok
  · cases hok; exact h
  · split at hok
    · cases hok
    · split at hok
      · cases hok
      · split at hok
        · cases hok
        · cases hok
          exact freeAt_chain st.blocks _ h

/-! ### Claim theorems for the heap allocator -/

/-- C1: after any call to `kfree` on a valid allocated pointer completes, no
two adjacent blocks in the heap chain are both free (given that the
invariant held before the call; `kmalloc` also preserves it and `heap_init`
establishes it, so it holds in every reachable state).  In particular,
allocating three adjacent blocks A, B, C (100, 200 and 16776844 bytes,
exactly tiling the fresh 16 MB heap at base 4096 into payloads 4120, 4244,
4468) and freeing A then C then B leaves a single free block whose size
16777192 equals the sum of the three payloads plus two headers' worth of
reclaimed space. -/
theorem C1_kfree_coalescing :
    (∀ (st : HeapState) (ptr : Nat) (st' : HeapState),
        noAdjFree st.blocks → kfree st ptr = .ok st' → noAdjFree st'.blocks) ∧
    (∀ (st : HeapState) (s : Nat),
        noAdjFree st.blocks → noAdjFree ((kmalloc st s).2).blocks) ∧
    noAdjFree (heap_init 4096).blocks ∧
    (kmalloc (heap_init 4096) 100).1 = some 4120 ∧
    (kmalloc (kmalloc (heap_init 4096) 100).2 200).1 = some 4244 ∧
    (kmalloc (kmalloc (kmalloc (heap_init 4096) 100).2 200).2 16776844).1 =
      some 4468 ∧
    (((kfree (kmalloc (kmalloc (kmalloc (heap_init 4096) 100).2 200).2
          16776844).2 4120).bind
        (fun s1 => kfree s1 4468)).bind (fun s2 => kfree s2 4244)).toOption.map
        HeapState.blocks =
      some [⟨100 + 200 + 16776844 + 2 * HDR, false⟩] := by
  refine ⟨kfree_noAdjFree, kmalloc_noAdjFree, ?_, ?_, ?_, ?_, ?_⟩
  · decide
  · decide
  · decide
  · decide
  · decide

/-- Witness for C1: the hypothesised conjuncts applied at a concrete input —
freeing the single allocated block of a fresh heap (which coalesces with the
free remainder) preserves the invariant, as does the allocation itself. -/
theorem C1_witness :
    noAdjFree (HeapState.mk 4096 [⟨16777192, false⟩] 0 1 1 0 100).blocks ∧
    noAdjFree ((kmalloc (heap_init 4096) 100).2).blocks :=
  ⟨C1_kfree_coalescing.1 (kmalloc (heap_init 4096) 100).2 4120 _
      (by decide) (by decide),
    C1_kfree_coalescing.2.1 (heap_init 4096) 100 (by decide)⟩

/-- C2: `kmalloc 0` returns null leaving the state unchanged; for a positive
size the request is rounded up to a 4-byte multiple with a 16-byte minimum;
if no free block is at least that large the fragmentation counter is bumped
and null returned; otherwise the returned pointer is the payload address of
a free block of sufficient size that is no larger than any other qualifying
free block (the scan also stops early on an exact match, which by this
minimality cannot change the chosen size). -/
theorem C2_kmalloc_best_fit (st : HeapState) (s : Nat) :
    kmalloc st 0 = (none, st) ∧
    (s + 3 < 2 ^ 32 → roundSize s = max 16 ((s + 3) / 4 * 4)) ∧
    (0 < s → (∀ b ∈ st.blocks, b.used = true ∨ b.size < roundSize s) →
      kmalloc st s = (none, { st with fragCount := st.fragCount + 1 })) ∧
    (0 < s → ∀ (r : Nat) (st' : HeapState), kmalloc st s = (some r, st') →
      ∃ i, ∃ hi : i < st.blocks.length,
        (st.blocks.get ⟨i, hi⟩).used = false ∧
        roundSize s ≤ (st.blocks.get ⟨i, hi⟩).size ∧
        (∀ b ∈ st.blocks, b.used = false → roundSize s ≤ b.size →
          (st.blocks.get ⟨i, hi⟩).size ≤ b.size) ∧
        r = blockAddr st.heapStart st.blocks i + HDR ∧
        st'.fragCount = st.fragCount) := by
  refine ⟨rfl, roundSize_eq s, ?_, ?_⟩
  · intro hs hnone
    unfold kmalloc
    rw [if_neg (by omega : ¬s = 0),
      findBestFitGo_eq_none (roundSize s) st.blocks 0 hnone]
  · intro hs r st' heq
    unfold kmalloc at heq
    rw [if_neg (by omega : ¬s = 0)] at heq
    split at heq
    · simp at heq
    · rename_i q hbf
      rcases findBestFitGo_some_spec (roundSize s) st.blocks 0 none q
          (by intro p hp; cases hp) hbf with ⟨h1, h2, h3, -⟩
      rcases h2 with h2 | ⟨k, hk, hik, hget⟩
      · cases h2
      · have hik0 : q.1 = k := by omega
        have hpair := Prod.mk.injEq .. |>.mp heq
        refine ⟨q.1, by omega, ?_, ?_, ?_, ?_, ?_⟩
        · rw [show (⟨q.1, by omega⟩ : Fin st.blocks.length) = ⟨k, hk⟩ by
            simp [hik0], hget]
        · rw [show (⟨q.1, by omega⟩ : Fin st.blocks.length) = ⟨k, hk⟩ by
            simp [hik0], hget]
          exact h1
        · intro b hb hbu hbs
          rw [show (⟨q.1, by omega⟩ : Fin st.blocks.length) = ⟨k, hk⟩ by
            simp [hik0], hget]
          exact h3 b hb hbu hbs
        · exact (Option.some.inj hpair.1).symm
        · rw [← hpair.2]

/-- Witness for C2: the conjuncts applied to a fresh heap and the request
size 100 — the no-fit branch is exercised on a request larger than the
whole arena. -/
theorem C2_witness :
    kmalloc (heap_init 4096) 0 = (none, heap_init 4096) ∧
    roundSize 100 = max 16 ((100 + 3) / 4 * 4) ∧
    kmalloc (heap_init 4096) (17 * 1024 * 1024) =
      (none, { heap_init 4096 with fragCount := 0 + 1 }) ∧
    (∃ i, ∃ hi : i < (heap_init 4096).blocks.length,
      ((heap_init 4096).blocks.get ⟨i, hi⟩).used = false ∧
      roundSize 100 ≤ ((heap_init 4096).blocks.get ⟨i, hi⟩).size ∧
      (∀ b ∈ (heap_init 4096).blocks, b.used = false → roundSize 100 ≤ b.size →
        ((heap_init 4096).blocks.get ⟨i, hi⟩).size ≤ b.size) ∧
      4120 = blockAddr (heap_init 4096).heapStart (heap_init 4096).blocks i + HDR ∧
      ((kmalloc (heap_init 4096) 100).2).fragCount = (heap_init 4096).fragCount) := by
  refine ⟨(C2_kmalloc_best_fit (heap_init 4096) 0).1,
    (C2_kmalloc_best_fit (heap_init 4096) 100).2.1 (by norm_num),
    (C2_kmalloc_best_fit (heap_init 4096) (17 * 1024 * 1024)).2.2.1
      (by norm_num) (by decide), ?_⟩
  exact (C2_kmalloc_best_fit (heap_init 4096) 100).2.2.2 (by norm_num)
    4120 (kmalloc (heap_init 4096) 100).2 (by decide)

/-- C8: calling `kfree` a second time on a pointer whose block is already
marked free is detected and escalates to the double-free panic instead of
modifying the block chain; concretely, allocating one block from a fresh
heap, freeing it, and freeing the same pointer again yields
`Panic.doubleFree`.  (The first conjunct covers any state in which the
pointer still heads a chain block marked free, which is the situation the
claim describes: no intervening `kmalloc` has handed the block out
again.) -/
theorem C8_double_free_detected :
    (∀ (st : HeapState) (ptr i : Nat) (b : HeapBlock),
        ptr ≠ 0 →
        findBlockIdx st.heapStart st.blocks ptr = some i →
        st.blocks.get? i = some b →
        b.used = false →
        kfree st ptr = .error Panic.doubleFree) ∧
    (∃ st1, kfree (kmalloc (heap_init 4096) 100).2 4120 = .ok st1 ∧
        kfree st1 4120 = .error Panic.doubleFree) := by
  constructor
  · intro st ptr i b hptr hidx hget hbu
    unfold kfree
    rw [if_neg hptr, hidx]
    simp only
    rw [hget]
    simp only
    rw [if_pos hbu]
  · exact ⟨HeapState.mk 4096 [⟨16777192, false⟩] 0 1 1 0 100,
      by decide, by decide⟩

/-- Witness for C8: the first conjunct applied to the fresh heap, whose
single block is free, at its payload pointer. -/
theorem C8_witness : kfree (heap_init 4096) 4120 = .error Panic.doubleFree :=
  C8_double_free_detected.1 (heap_init 4096) 4120 0 ⟨16777192, false⟩
    (by decide) (by decide) (by decide) rfl

/-! ### The aligned allocation wrapper -/

/-- The masked address is a multiple of the (power-of-two) alignment. -/
theorem masked_mod_eq_zero (x k : Nat) (hk : k ≤ 32) :
    ((x % 2 ^ 32) &&& (MASK32 ^^^ (2 ^ k - 1))) % 2 ^ k = 0 := by
  rw [and_mask32_not _ k hk (Nat.mod_lt _ (by norm_num))]
  have hdm := Nat.div_add_mod (x % 2 ^ 32) (2 ^ k)
  have hsub : x % 2 ^ 32 - x % 2 ^ 32 % 2 ^ k =
      2 ^ k * (x % 2 ^ 32 / 2 ^ k) := by omega
  rw [hsub]
  exact Nat.mul_mod_right _ _

/-- A successful `kmalloc` returns a payload pointer, which lies one header
past a block header. -/
theorem kmalloc_HDR_le (st : HeapState) (s r : Nat) (st' : HeapState)
    (heq : kmalloc st s = (some r, st')) : HDR ≤ r := by
  unfold kmalloc at heq
  split at heq
  · simp at heq
  · split at heq
    · simp at heq
    · have hr := congrArg Prod.fst heq
      simp only [Option.some.injEq] at hr
      omega

/-- C7: `kmalloc_aligned` returns null when the size is zero, the alignment
is zero, or the alignment is not a power of two; and for every power-of-two
alignment `2 ^ k` (`k ≤ 32`, covering the claimed range 8 to 4096), a
successful call returns an address that is a multiple of the alignment. -/
theorem C7_kmalloc_aligned_validation (st : HeapState) (size alignment : Nat) :
    (size = 0 → kmalloc_aligned st size alignment = (none, st)) ∧
    (alignment = 0 → kmalloc_aligned st size alignment = (none, st)) ∧
    (alignment &&& (alignment - 1) ≠ 0 →
      kmalloc_aligned st size alignment = (none, st)) ∧
    (∀ k, k ≤ 32 → alignment = 2 ^ k →
      ∀ (r : AlignedAlloc) (st' : HeapState),
        kmalloc_aligned st size alignment = (some r, st') →
        r.aligned % alignment = 0) := by
  refine ⟨?_, ?_, ?_, ?_⟩
  · intro h
    unfold kmalloc_aligned
    rw [if_pos (Or.inl h)]
  · intro h
    unfold kmalloc_aligned
    rw [if_pos (Or.inr h)]
  · intro h
    unfold kmalloc_aligned
    by_cases hz : size = 0 ∨ alignment = 0
    · rw [if_pos hz]
    · rw [if_neg hz, if_pos h]
  · intro k hk hpow r st' heq
    unfold kmalloc_aligned at heq
    split at heq
    · simp at heq
    · split at heq
      · simp at heq
      · split at heq
        · simp at heq
        · rename_i raw st1 hraw
          have hr := congrArg Prod.fst heq
          simp only [Option.some.injEq] at hr
          rw [← hr, hpow]
          exact masked_mod_eq_zero (raw + 4 + 4 + 2 ^ k - 1) k hk

/-- Witness for C7: size 10, alignment 8 on a fresh heap; the raw pointer
4120 is aligned up to 4128, a multiple of 8. -/
theorem C7_witness :
    (kmalloc_aligned (heap_init 4096) 0 8 = (none, heap_init 4096)) ∧
    (kmalloc_aligned (heap_init 4096) 10 0 = (none, heap_init 4096)) ∧
    (kmalloc_aligned (heap_init 4096) 10 12 = (none, heap_init 4096)) ∧
    (AlignedAlloc.mk 4128 4096 8).aligned % 8 = 0 := by
  refine ⟨(C7_kmalloc_aligned_validation (heap_init 4096) 0 8).1 rfl,
    (C7_kmalloc_aligned_validation (heap_init 4096) 10 0).2.1 rfl,
    (C7_kmalloc_aligned_validation (heap_init 4096) 10 12).2.2.1 (by decide),
    (C7_kmalloc_aligned_validation (heap_init 4096) 10 8).2.2.2 3 (by norm_num)
      rfl (AlignedAlloc.mk 4128 4096 8)
      (HeapState.mk 4096 [⟨28, true⟩, ⟨16777140, false⟩] 0 1 0 28 28)
      (by decide)⟩

/-- C6: for every pointer returned by `kmalloc_aligned`, the original-block
address recorded in the hidden word, advanced by the heap-block header size,
equals the pointer returned by the underlying `kmalloc` call; and
`kfree_aligned` (whose alignment re-check passes) hands exactly that
original payload pointer to `kfree`. -/
theorem C6_aligned_roundtrip (st : HeapState) (size alignment : Nat)
    (r : AlignedAlloc) (st' : HeapState) (k : Nat) (hk : k ≤ 32)
    (hpow : alignment = 2 ^ k)
    (heq : kmalloc_aligned st size alignment = (some r, st')) :
    ∃ raw, kmalloc st (size + alignment - 1 + 4 + 4) = (some raw, st') ∧
      r.storedOriginal + HDR = raw ∧
      r.storedAlignment = alignment ∧
      ∀ st2, kfree_aligned st2 r = kfree st2 raw := by
  unfold kmalloc_aligned at heq
  split at heq
  · simp at heq
  · split at heq
    · simp at heq
    · split at heq
      · simp at heq
      · rename_i raw st1 hraw
        have hr := congrArg Prod.fst heq
        have hst := congrArg Prod.snd heq
        simp only [Option.some.injEq] at hr
        simp only at hst
        have hle : HDR ≤ raw := kmalloc_HDR_le st _ raw st1 hraw
        refine ⟨raw, by rw [← hst]; exact hraw,
          by rw [← hr]; show raw - HDR + HDR = raw; omega,
          by rw [← hr], ?_⟩
        intro st2
        unfold kfree_aligned
        rw [if_neg, ← hr]
        · simp only
          congr 1
          omega
        · rw [← hr]
          simp only [Decidable.not_not]
          rw [hpow]
          exact masked_mod_eq_zero (raw + 4 + 4 + 2 ^ k - 1) k hk

/-- Witness for C6: size 10, alignment 8 on a fresh heap. -/
theorem C6_witness :
    ∃ raw, kmalloc (heap_init 4096) (10 + 8 - 1 + 4 + 4) =
        (some raw, HeapState.mk 4096 [⟨28, true⟩, ⟨16777140, false⟩] 0 1 0 28 28) ∧
      (AlignedAlloc.mk 4128 4096 8).storedOriginal + HDR = raw ∧
      (AlignedAlloc.mk 4128 4096 8).storedAlignment = 8 ∧
      ∀ st2, kfree_aligned st2 (AlignedAlloc.mk 4128 4096 8) = kfree st2 raw :=
  C6_aligned_roundtrip (heap_init 4096) 10 8 (AlignedAlloc.mk 4128 4096 8)
    (HeapState.mk 4096 [⟨28, true⟩, ⟨16777140, false⟩] 0 1 0 28 28)
    3 (by norm_num) rfl (by decide)

/-! ### The frame allocator -/

theorem scanClear_some (bm : Nat → Bool) (total start : Nat) (ht : 0 < total) :
    ∀ fuel i fi, scanClear bm total start fuel i = some fi →
      bm fi = false ∧ fi < total := by
  intro fuel
  induction fuel with
  | zero => intro i fi h; cases h
  | succ f ih =>
    intro i fi h
    simp only [scanClear] at h
    split at h
    · rename_i hbm
      cases h
      exact ⟨hbm, Nat.mod_lt _ ht⟩
    · exact ih (i + 1) fi h

/-- `alloc_frame` leaves the state unchanged on exhaustion, and on success
hands out a frame that was clear in the bitmap (hence not currently
allocated), preserving the invariant with the new frame recorded. -/
theorem alloc_frame_inv (st : PagingState) (ghost : List Nat)
    (hinv : FrameInv st ghost) :
    (∀ st', alloc_frame st = (none, st') → st' = st) ∧
    (∀ fi st', alloc_frame st = (some fi, st') →
      fi < st.totalFrames ∧ fi ∉ ghost ∧ FrameInv st' (fi :: ghost)) := by
  rcases hinv with ⟨hnd, hbound, hbit, hhigh, hused⟩
  constructor
  · intro st' h
    unfold alloc_frame at h
    split at h
    · exact ((Prod.mk.injEq ..).mp h).2.symm
    · simp at h
  · intro fi st' h
    unfold alloc_frame at h
    split at h
    · simp at h
    · rename_i fi0 hsc
      have htot : 0 < st.totalFrames := by
        rcases Nat.eq_zero_or_pos st.totalFrames with h0 | h0
        · rw [h0] at hsc; cases hsc
        · exact h0
      rcases scanClear_some st.frameBitmap st.totalFrames st.lastAllocFrame
          htot st.totalFrames 0 fi0 hsc with ⟨hclear, hlt⟩
      have hpair := (Prod.mk.injEq ..).mp h
      have hfi : fi0 = fi := Option.some.inj hpair.1
      subst hfi
      have hnotmem : fi0 ∉ ghost := by
        intro hmem
        rw [(hbit fi0 hlt).mpr hmem] at hclear
        cases hclear
      refine ⟨hlt, hnotmem, ?_⟩
      rw [← hpair.2]
      refine ⟨List.nodup_cons.mpr ⟨hnotmem, hnd⟩, ?_, ?_, ?_, ?_⟩
      · intro i hi
        rcases List.mem_cons.mp hi with rfl | hi
        · exact hlt
        · exact hbound i hi
      · intro i hi
        have hi' : i < st.totalFrames := hi
        show (if i = fi0 then true else st.frameBitmap i) = true ↔
          i ∈ fi0 :: ghost
        by_cases he : i = fi0
        · subst he
          simp
        · rw [if_neg he, hbit i hi', List.mem_cons]
          constructor
          · exact Or.inr
          · rintro (hx | hx)
            · exact absurd hx he
            · exact hx
      · intro i hi
        have hi' : st.totalFrames ≤ i := hi
        have hne : i ≠ fi0 := by omega
        show (if i = fi0 then true else st.frameBitmap i) = false
        rw [if_neg hne]
        exact hhigh i hi'
      · show st.usedFrames + 1 = (fi0 :: ghost).length
        rw [hused, List.length_cons]

/-- Freeing a currently allocated frame preserves the invariant with the
frame removed from the allocated set. -/
theorem free_frame_inv (st : PagingState) (ghost : List Nat) (i : Nat)
    (hinv : FrameInv st ghost) (hmem : i ∈ ghost) :
    FrameInv (free_frame st (i * PAGE_SIZE)) (ghost.erase i) := by
  rcases hinv with ⟨hnd, hbound, hbit, hhigh, hused⟩
  have hdiv : i * PAGE_SIZE / PAGE_SIZE = i :=
    Nat.mul_div_cancel i (by norm_num [PAGE_SIZE])
  refine ⟨hnd.erase i, ?_, ?_, ?_, ?_⟩
  · intro j hj
    exact hbound j (List.mem_of_mem_erase hj)
  · intro j hj
    simp only [free_frame, hdiv]
    by_cases he : j = i
    · subst he
      rw [if_pos rfl]
      constructor
      · intro hx; cases hx
      · intro hx
        exact absurd rfl ((hnd.mem_erase_iff.mp hx).1)
    · rw [if_neg he]
      rw [hbit j hj, hnd.mem_erase_iff]
      constructor
      · exact fun hx => ⟨he, hx⟩
      · exact fun hx => hx.2
  · intro j hj
    simp only [free_frame, hdiv]
    by_cases he : j = i
    · rw [if_pos he]
    · rw [if_neg he]
      exact hhigh j hj
  · simp only [free_frame, hused]
    rw [List.length_erase_of_mem hmem]

theorem runFrameOps_alloc_none (st : PagingState) (ghost : List Nat)
    (ops : List FrameOp) (st' : PagingState)
    (h : alloc_frame st = (none, st')) :
    runFrameOps st ghost (.alloc :: ops) = runFrameOps st' ghost ops := by
  simp only [runFrameOps, h]

theorem runFrameOps_alloc_some (st : PagingState) (ghost : List Nat)
    (ops : List FrameOp) (fi : Nat) (st' : PagingState)
    (h : alloc_frame st = (some fi, st')) :
    runFrameOps st ghost (.alloc :: ops) = runFrameOps st' (fi :: ghost) ops := by
  simp only [runFrameOps, h]

theorem runFrameOps_free_mem (st : PagingState) (ghost : List Nat)
    (ops : List FrameOp) (i : Nat) (h : i ∈ ghost) :
    runFrameOps st ghost (.free i :: ops) =
      runFrameOps (free_frame st (i * PAGE_SIZE)) (ghost.erase i) ops := by
  simp only [runFrameOps, if_pos h]

theorem runFrameOps_free_not (st : PagingState) (ghost : List Nat)
    (ops : List FrameOp) (i : Nat) (h : i ∉ ghost) :
    runFrameOps st ghost (.free i :: ops) = runFrameOps st ghost ops := by
  simp only [runFrameOps, if_neg h]

/-- The frame-allocator invariant holds along every trace. -/
theorem runFrameOps_inv : ∀ (ops : List FrameOp) (st : PagingState)
    (ghost : List Nat), FrameInv st ghost →
    FrameInv (runFrameOps st ghost ops).1 (runFrameOps st ghost ops).2 := by
  intro ops
  induction ops with
  | nil => intro st ghost h; exact h
  | cons op ops ih =>
    intro st ghost h
    cases op with
    | alloc =>
      rcases halloc : alloc_frame st with ⟨ofi, st'⟩
      rcases ofi with - | fi
      · rw [runFrameOps_alloc_none st ghost ops st' halloc]
        have hst : st' = st := (alloc_frame_inv st ghost h).1 st' halloc
        subst hst
        exact ih st' ghost h
      · rw [runFrameOps_alloc_some st ghost ops fi st' halloc]
        exact ih st' (fi :: ghost)
          ((alloc_frame_inv st ghost h).2 fi st' halloc).2.2
    | free i =>
      by_cases hmem : i ∈ ghost
      · rw [runFrameOps_free_mem st ghost ops i hmem]
        exact ih _ _ (free_frame_inv st ghost i h hmem)
      · rw [runFrameOps_free_not st ghost ops i hmem]
        exact ih st ghost h

/-- Under the invariant the popcount of the bitmap equals `used_frames`. -/
theorem countSetBits_eq (st : PagingState) (ghost : List Nat)
    (hinv : FrameInv st ghost) : countSetBits st = st.usedFrames := by
  rcases hinv with ⟨hnd, hbound, hbit, hhigh, hused⟩
  rw [hused]
  unfold countSetBits
  rw [List.countP_eq_length_filter]
  have hperm : List.Perm
      ((List.range st.totalFrames).filter (fun i => st.frameBitmap i)) ghost := by
    rw [List.perm_ext_iff_of_nodup ((List.nodup_range _).filter _) hnd]
    intro a
    simp only [List.mem_filter, List.mem_range]
    constructor
    · rintro ⟨ha, hb⟩
      exact (hbit a ha).mp hb
    · intro ha
      exact ⟨hbound a ha, (hbit a (hbound a ha)).mpr ha⟩
  exact hperm.length_eq

/-- C4: along any trace of `alloc_frame`/`free_frame` calls that frees only
currently allocated frames (and hence never exceeds `total_frames`
concurrent allocations), the popcount of the bitmap equals `used_frames`,
an allocation never returns a frame that is currently allocated (so a frame
handed out is not handed out again until freed), and once every allocated
frame has been freed `used_frames` is zero. -/
theorem C4_frame_roundtrip (n : Nat) (ops : List FrameOp) :
    countSetBits (runFrameOps (initFrames n) [] ops).1 =
      (runFrameOps (initFrames n) [] ops).1.usedFrames ∧
    (∀ fi st', alloc_frame (runFrameOps (initFrames n) [] ops).1 =
        (some fi, st') → fi ∉ (runFrameOps (initFrames n) [] ops).2) ∧
    ((runFrameOps (initFrames n) [] ops).2 = [] →
      (runFrameOps (initFrames n) [] ops).1.usedFrames = 0) := by
  have h0 : FrameInv (initFrames n) [] :=
    ⟨List.nodup_nil, by simp, by simp [initFrames], fun i _ => rfl, rfl⟩
  have hinv := runFrameOps_inv ops (initFrames n) [] h0
  refine ⟨countSetBits_eq _ _ hinv, ?_, ?_⟩
  · intro fi st' halloc
    exact ((alloc_frame_inv _ _ hinv).2 fi st' halloc).2.1
  · intro hemp
    have hlen := hinv.2.2.2.2
    rw [hemp] at hlen
    simpa using hlen

/-- Witness for C4: two frames, one allocation — the second allocation
returns frame 1, not the already-allocated frame 0; and after freeing the
allocated frame the used counter is zero again. -/
theorem C4_witness :
    countSetBits (runFrameOps (initFrames 2) [] [FrameOp.alloc]).1 =
      (runFrameOps (initFrames 2) [] [FrameOp.alloc]).1.usedFrames ∧
    1 ∉ (runFrameOps (initFrames 2) [] [FrameOp.alloc]).2 ∧
    (runFrameOps (initFrames 2) [] [FrameOp.alloc, FrameOp.free 0]).1.usedFrames
      = 0 :=
  ⟨(C4_frame_roundtrip 2 [FrameOp.alloc]).1,
    (C4_frame_roundtrip 2 [FrameOp.alloc]).2.1 1
      (alloc_frame (runFrameOps (initFrames 2) [] [FrameOp.alloc]).1).2 rfl,
    (C4_frame_roundtrip 2 [FrameOp.alloc, FrameOp.free 0]).2.2 rfl⟩

/-! ### Paging and the frame bitmap -/

theorem map_page_frameBitmap (st : PagingState) (va pa fl : Nat) :
    (map_page st va pa fl).frameBitmap = st.frameBitmap := rfl

theorem map_page_usedFrames (st : PagingState) (va pa fl : Nat) :
    (map_page st va pa fl).usedFrames = st.usedFrames := rfl

theorem foldl_map_page_frameBitmap (l : List Nat) : ∀ st : PagingState,
    (l.foldl (fun s i => map_page s (i * PAGE_SIZE) (i * PAGE_SIZE) 3)
      st).frameBitmap = st.frameBitmap := by
  induction l with
  | nil => intro st; rfl
  | cons a l ih =>
    intro st
    rw [List.foldl_cons, ih, map_page_frameBitmap]

theorem foldl_map_page_usedFrames (l : List Nat) : ∀ st : PagingState,
    (l.foldl (fun s i => map_page s (i * PAGE_SIZE) (i * PAGE_SIZE) 3)
      st).usedFrames = st.usedFrames := by
  induction l with
  | nil => intro st; rfl
  | cons a l ih =>
    intro st
    rw [List.foldl_cons, ih, map_page_usedFrames]

/-- The entry `map_page` writes reads back with the frame number
`pa >> 12` and the flag bits decoded from the low three flag bits. -/
theorem map_page_entryAt_self (st : PagingState) (va pa fl : Nat) :
    entryAt (map_page st va pa fl) (va / PAGE_SIZE / PAGE_ENTRIES)
      (va / PAGE_SIZE % PAGE_ENTRIES) =
    some ⟨(fl &&& 1) != 0, (fl &&& 2) != 0, (fl &&& 4) != 0, pa >>> 12⟩ := by
  unfold entryAt map_page
  simp

/-- `map_page` leaves every other installed entry unchanged. -/
theorem map_page_entryAt_preserve (st : PagingState) (va pa fl ti ei : Nat)
    (e : PageEntry) (he : entryAt st ti ei = some e)
    (hne : ¬(ti = va / PAGE_SIZE / PAGE_ENTRIES ∧
      ei = va / PAGE_SIZE % PAGE_ENTRIES)) :
    entryAt (map_page st va pa fl) ti ei = some e := by
  unfold entryAt map_page
  unfold entryAt at he
  by_cases hti : ti = va / PAGE_SIZE / PAGE_ENTRIES
  · subst hti
    have hei : ei ≠ va / PAGE_SIZE % PAGE_ENTRIES := fun h => hne ⟨rfl, h⟩
    simp only []
    simp only [if_true, Option.map_some', Option.some.injEq]
    rw [if_neg hei]
    rcases ht : st.tables (va / PAGE_SIZE / PAGE_ENTRIES) with - | t
    · rw [ht] at he; cases he
    · rw [ht] at he
      simp only [Option.map_some', Option.some.injEq] at he
      simp [he]
  · simp only [if_neg hti]
    exact he

/-- After identity-mapping pages `0, …, n-1` (with `n ≤ 1024`, flags 0x03)
over any starting state, entry `i < n` of table 0 is present, writable,
supervisor, with frame number `i`. -/
theorem identity_fold_entry : ∀ n : Nat, n ≤ 1024 → ∀ st0 : PagingState,
    ∀ i, i < n →
    entryAt ((List.range n).foldl
      (fun s j => map_page s (j * PAGE_SIZE) (j * PAGE_SIZE) 3) st0) 0 i =
    some ⟨true, true, false, i⟩ := by
  intro n
  induction n with
  | zero => intro _ _ i hi; omega
  | succ m ih =>
    intro hm st0 i hi
    rw [List.range_succ, List.foldl_append, List.foldl_cons, List.foldl_nil]
    have hdiv : m * PAGE_SIZE / PAGE_SIZE = m :=
      Nat.mul_div_cancel m (by norm_num [PAGE_SIZE])
    have hm2 : m < PAGE_ENTRIES := by
      have h1 : m < 1024 := by omega
      simpa [PAGE_ENTRIES] using h1
    have hti : m * PAGE_SIZE / PAGE_SIZE / PAGE_ENTRIES = 0 := by
      rw [hdiv]
      exact Nat.div_eq_of_lt hm2
    have hei : m * PAGE_SIZE / PAGE_SIZE % PAGE_ENTRIES = m := by
      rw [hdiv]
      exact Nat.mod_eq_of_lt hm2
    have hfr : (m * PAGE_SIZE) >>> 12 = m := by
      rw [Nat.shiftRight_eq_div_pow]
      have h2 : (2 : Nat) ^ 12 = PAGE_SIZE := by norm_num [PAGE_SIZE]
      rw [h2, hdiv]
    by_cases him : i = m
    · have hself := map_page_entryAt_self
        ((List.range m).foldl
          (fun s j => map_page s (j * PAGE_SIZE) (j * PAGE_SIZE) 3) st0)
        (m * PAGE_SIZE) (m * PAGE_SIZE) 3
      have hb1 : ((3 : Nat) &&& 1 != 0) = true := by decide
      have hb2 : ((3 : Nat) &&& 2 != 0) = true := by decide
      have hb3 : ((3 : Nat) &&& 4 != 0) = false := by decide
      rw [hti, hei, hfr, hb1, hb2, hb3] at hself
      rw [him]
      exact hself
    · have hrec := ih (by omega) st0 i (by omega)
      apply map_page_entryAt_preserve _ _ _ _ _ _ _ hrec
      rw [hti, hei]
      rintro ⟨-, h2⟩
      exact him h2

/-- Counterexample to C5: with the boot configuration
`paging_init(128 MB)` (the call `mm_init` makes), entry 0 of table 0 is
marked present and references frame 0, yet frame 0 is clear in the frame
bitmap and `used_frames = 0` — a present entry whose frame is not marked
used, contradicting the claimed invariant for the identity-mapped
entries. -/
theorem C5_counterexample :
    ∃ st, paging_init (128 * 1024 * 1024) = .ok st ∧
      ∃ e, entryAt st 0 0 = some e ∧ e.present = true ∧
        st.frameBitmap e.frame = false ∧ st.usedFrames = 0 := by
  have hok : paging_init (128 * 1024 * 1024) = .ok ((List.range 1024).foldl
      (fun s j => map_page s (j * PAGE_SIZE) (j * PAGE_SIZE) 3)
      (initFrames (128 * 1024 * 1024 / PAGE_SIZE))) := by
    unfold paging_init
    rw [if_neg (by norm_num)]
  refine ⟨_, hok, ⟨true, true, false, 0⟩, ?_, rfl, ?_, ?_⟩
  · exact identity_fold_entry 1024 (le_refl _) _ 0 (by norm_num)
  · rw [foldl_map_page_frameBitmap]
    rfl
  · rw [foldl_map_page_usedFrames]
    rfl

/-- C5 as amended: `map_page` never consults or modifies the frame bitmap
or the used-frame counter, and after `paging_init(128 MB)` the 1024
identity-mapped entries are present with frame numbers `0 … 1023` while the
frame bitmap is entirely clear and `used_frames = 0`; a present entry
therefore references a used frame only if the caller marks the frame used
separately, which the identity-mapping path does not do. -/
theorem C5_amended :
    (∀ (st : PagingState) (va pa fl : Nat),
      (map_page st va pa fl).frameBitmap = st.frameBitmap ∧
      (map_page st va pa fl).usedFrames = st.usedFrames) ∧
    (∀ st, paging_init (128 * 1024 * 1024) = .ok st →
      (∀ i, i < 1024 → entryAt st 0 i = some ⟨true, true, false, i⟩) ∧
      (∀ j, st.frameBitmap j = false) ∧
      st.usedFrames = 0) := by
  constructor
  · intro st va pa fl
    exact ⟨rfl, rfl⟩
  · intro st hok
    unfold paging_init at hok
    rw [if_neg (by norm_num)] at hok
    have hst := (Except.ok.inj hok).symm
    refine ⟨?_, ?_, ?_⟩
    · intro i hi
      rw [hst]
      exact identity_fold_entry 1024 (le_refl _) _ i hi
    · intro j
      rw [hst, foldl_map_page_frameBitmap]
      rfl
    · rw [hst, foldl_map_page_usedFrames]
      rfl

/-- Witness for C5's amended statement: entry 0 after boot paging setup is
present with frame 0, and the bitmap bit for frame 0 is clear. -/
theorem C5_witness :
    (map_page (initFrames 4) 0 0 3).frameBitmap = (initFrames 4).frameBitmap ∧
    ∃ st, paging_init (128 * 1024 * 1024) = .ok st ∧
      entryAt st 0 0 = some ⟨true, true, false, 0⟩ ∧
      st.frameBitmap 0 = false := by
  have hok : paging_init (128 * 1024 * 1024) = .ok ((List.range 1024).foldl
      (fun s j => map_page s (j * PAGE_SIZE) (j * PAGE_SIZE) 3)
      (initFrames (128 * 1024 * 1024 / PAGE_SIZE))) := by
    unfold paging_init
    rw [if_neg (by norm_num)]
  refine ⟨(C5_amended.1 (initFrames 4) 0 0 3).1, _, hok, ?_, ?_⟩
  · exact (C5_amended.2 _ hok).1 0 (by norm_num)
  · exact (C5_amended.2 _ hok).2.1 0

/-- C10: `alloc_frame` encodes success as `frame_index * PAGE_SIZE` and
exhaustion as the null pointer; selecting frame 0 — which the very first
allocation after `paging_init` does, since the bitmap is clear and the
cursor starts at 0 — sets the bit and bumps `used_frames` but returns
address `0`, indistinguishable from the out-of-frames return. -/
theorem C10_frame_zero_null_ambiguity :
    (alloc_frame_addr (initFrames 32768)).1 = 0 ∧
    (alloc_frame_addr (initFrames 32768)).2.usedFrames = 1 ∧
    (alloc_frame_addr (initFrames 32768)).2.frameBitmap 0 = true ∧
    alloc_frame_addr (PagingState.mk 1 (fun _ => true) 1 0 (fun _ => none)) =
      (0, PagingState.mk 1 (fun _ => true) 1 0 (fun _ => none)) :=
  ⟨rfl, rfl, rfl, rfl⟩

/-! ### The slab layer: list primitives -/

theorem lookupId_mem : ∀ (l : List Slab) (i : Nat) (s : Slab),
    lookupId l i = some s → s ∈ l ∧ s.id = i := by
  intro l
  induction l with
  | nil => intro i s h; cases h
  | cons a rest ih =>
    intro i s h
    simp only [lookupId] at h
    split at h
    · rename_i ha
      cases h
      exact ⟨List.mem_cons_self _ _, ha⟩
    · rcases ih i s h with ⟨h1, h2⟩
      exact ⟨List.mem_cons_of_mem a h1, h2⟩

theorem lookupId_perm : ∀ (l : List Slab) (i : Nat) (s : Slab),
    lookupId l i = some s → List.Perm l (s :: removeId l i) := by
  intro l
  induction l with
  | nil => intro i s h; cases h
  | cons a rest ih =>
    intro i s h
    simp only [lookupId] at h
    simp only [removeId]
    split at h
    · rename_i ha
      cases h
      rw [if_pos ha]
    · rename_i ha
      rw [if_neg ha]
      have hp := ih i s h
      exact (hp.cons a).trans (List.Perm.swap s a _)

theorem removeId_eq_self : ∀ (l : List Slab) (i : Nat),
    i ∉ l.map Slab.id → removeId l i = l := by
  intro l
  induction l with
  | nil => intro i _; rfl
  | cons a rest ih =>
    intro i hi
    simp only [List.map_cons, List.mem_cons] at hi
    push_neg at hi
    simp only [removeId]
    rw [if_neg (fun h => hi.1 h.symm)]
    rw [ih i hi.2]

theorem replaceId_eq_self : ∀ (l : List Slab) (s' : Slab),
    s'.id ∉ l.map Slab.id → replaceId l s' = l := by
  intro l
  induction l with
  | nil => intro s' _; rfl
  | cons a rest ih =>
    intro s' hi
    simp only [List.map_cons, List.mem_cons] at hi
    push_neg at hi
    simp only [replaceId]
    rw [if_neg (fun h => hi.1 h.symm)]
    rw [ih s' hi.2]

theorem replaceId_decomp : ∀ (l : List Slab) (s' s : Slab),
    lookupId l s'.id = some s →
    ∃ l₁ l₂, l = l₁ ++ s :: l₂ ∧ replaceId l s' = l₁ ++ s' :: l₂ := by
  intro l
  induction l with
  | nil => intro s' s h; cases h
  | cons a rest ih =>
    intro s' s h
    simp only [lookupId] at h
    simp only [replaceId]
    split at h
    · rename_i ha
      cases h
      rw [if_pos ha]
      exact ⟨[], rest, rfl, rfl⟩
    · rename_i ha
      rw [if_neg ha]
      rcases ih s' s h with ⟨l₁, l₂, h1, h2⟩
      exact ⟨a :: l₁, l₂, by rw [List.cons_append, h1], by rw [List.cons_append, h2]⟩

theorem lookupId_of_mem_nodup : ∀ (l : List Slab) (s : Slab),
    (l.map Slab.id).Nodup → s ∈ l → lookupId l s.id = some s := by
  intro l
  induction l with
  | nil => intro s _ h; cases h
  | cons a rest ih =>
    intro s hnd hmem
    simp only [List.map_cons, List.nodup_cons] at hnd
    simp only [lookupId]
    rcases List.mem_cons.mp hmem with rfl | hmem
    · rw [if_pos rfl]
    · by_cases ha : a.id = s.id
      · exfalso
        apply hnd.1
        rw [ha]
        exact List.mem_map_of_mem Slab.id hmem
      · rw [if_neg ha]
        exact ih s hnd.2 hmem

theorem lookupId_none_of_not_mem : ∀ (l : List Slab) (i : Nat),
    i ∉ l.map Slab.id → lookupId l i = none := by
  intro l
  induction l with
  | nil => intro i _; rfl
  | cons a rest ih =>
    intro i hi
    simp only [List.map_cons, List.mem_cons] at hi
    push_neg at hi
    simp only [lookupId]
    rw [if_neg (fun h => hi.1 h.symm)]
    exact ih i hi.2

/-- The accounting core: if two states' slab pools are both, up to
permutation, a common pool `M` plus one slab — with the same identity and
the second one holding one more live object — then the second state has one
more object in total, one more on that slab, and the same count
elsewhere. -/
theorem count_core (stA stB : CacheState) (sA sB : Slab) (M : List Slab)
    (hA : List.Perm (allSlabs stA) (sA :: M))
    (hB : List.Perm (allSlabs stB) (sB :: M))
    (hid : sB.id = sA.id) (hinc : sB.inuse = sA.inuse + 1) :
    totalInuse stB = totalInuse stA + 1 ∧
    inuseOf stB sA.id = inuseOf stA sA.id + 1 ∧
    (∀ j, j ≠ sA.id → inuseOf stB j = inuseOf stA j) := by
  have hsumA : totalInuse stA = sA.inuse + ((M.map Slab.inuse).sum) := by
    unfold totalInuse
    rw [(hA.map Slab.inuse).sum_eq]
    simp
  have hsumB : totalInuse stB = sB.inuse + ((M.map Slab.inuse).sum) := by
    unfold totalInuse
    rw [(hB.map Slab.inuse).sum_eq]
    simp
  have hfA : ∀ j, inuseOf stA j =
      (((sA :: M).filter (fun s => s.id == j)).map Slab.inuse).sum := by
    intro j
    unfold inuseOf
    rw [((hA.filter _).map Slab.inuse).sum_eq]
  have hfB : ∀ j, inuseOf stB j =
      (((sB :: M).filter (fun s => s.id == j)).map Slab.inuse).sum := by
    intro j
    unfold inuseOf
    rw [((hB.filter _).map Slab.inuse).sum_eq]
  refine ⟨by omega, ?_, ?_⟩
  · rw [hfA sA.id, hfB sA.id]
    rw [List.filter_cons, List.filter_cons]
    rw [if_pos (show (sB.id == sA.id) = true by
      rw [beq_iff_eq]; exact hid), if_pos (by simp)]
    simp only [List.map_cons, List.sum_cons]
    omega
  · intro j hj
    have hneA : ¬((sA.id == j) = true) := by
      simp only [beq_iff_eq]
      exact fun h => hj h.symm
    have hneB : ¬((sB.id == j) = true) := by
      simp only [beq_iff_eq, hid]
      exact fun h => hj h.symm
    rw [hfA j, hfB j]
    rw [List.filter_cons, List.filter_cons]
    rw [if_neg hneA, if_neg hneB]

/-- The slab-pool part of the invariant transfers whenever the two pools
are a common `M` plus one slab of unchanged identity and object total. -/
theorem pool_core (st st' : CacheState) (s s' : Slab) (M : List Slab)
    (hA : List.Perm (allSlabs st) (s :: M))
    (hB : List.Perm (allSlabs st') (s' :: M))
    (hid : s'.id = s.id)
    (hsum : s'.inuse + s'.flen = s.inuse + s.flen)
    (hnext : st.nextId ≤ st'.nextId)
    (hnum : st'.num = st.num)
    (hinv : CacheInv st) :
    (∀ x ∈ allSlabs st', x.inuse + x.flen = st'.num) ∧
    ((allSlabs st').map Slab.id).Nodup ∧
    (∀ x ∈ allSlabs st', x.id < st'.nextId) := by
  rcases hinv with ⟨-, -, -, -, h5, h6, h7⟩
  have hsmem : s ∈ allSlabs st := hA.mem_iff.mpr (List.mem_cons_self _ _)
  have hMsub : ∀ x ∈ M, x ∈ allSlabs st := fun x hx =>
    hA.mem_iff.mpr (List.mem_cons_of_mem _ hx)
  refine ⟨?_, ?_, ?_⟩
  · intro x hx
    rcases List.mem_cons.mp (hB.mem_iff.mp hx) with rfl | hx2
    · rw [hnum, ← h5 s hsmem]
      exact hsum
    · rw [hnum]
      exact h5 x (hMsub x hx2)
  · have hmapB : List.Perm ((allSlabs st').map Slab.id)
        (s.id :: M.map Slab.id) := by
      have hm := hB.map Slab.id
      simpa [hid] using hm
    have hmapA : List.Perm ((allSlabs st).map Slab.id)
        (s.id :: M.map Slab.id) := by
      simpa using hA.map Slab.id
    rw [hmapB.nodup_iff, ← hmapA.nodup_iff]
    exact h6
  · intro x hx
    rcases List.mem_cons.mp (hB.mem_iff.mp hx) with rfl | hx2
    · rw [hid]
      exact lt_of_lt_of_le (h7 s hsmem) hnext
    · exact lt_of_lt_of_le (h7 x (hMsub x hx2)) hnext

theorem alloc_eq_part (st : CacheState) (s : Slab) (R : List Slab)
    (hpart : st.slabsPart = s :: R) :
    kmem_cache_alloc st = allocFrom st s true R := by
  simp only [kmem_cache_alloc, hpart]

theorem alloc_eq_free (st : CacheState) (s : Slab) (R : List Slab)
    (hpart : st.slabsPart = []) (hfree : st.slabsFree = s :: R) :
    kmem_cache_alloc st = allocFrom st s false R := by
  simp only [kmem_cache_alloc, hpart, hfree]

theorem alloc_eq_grow_fail (st : CacheState)
    (hpart : st.slabsPart = []) (hfree : st.slabsFree = [])
    (hb : st.growBudget = 0) :
    kmem_cache_alloc st = (none, { st with errors := st.errors + 1 }) := by
  simp only [kmem_cache_alloc, hpart, hfree, cache_grow, hb, if_pos]

theorem alloc_eq_grow (st : CacheState)
    (hpart : st.slabsPart = []) (hfree : st.slabsFree = [])
    (hb : st.growBudget ≠ 0) :
    kmem_cache_alloc st = allocFrom
      { st with
        growBudget := st.growBudget - 1
        nextId := st.nextId + 1
        slabsFree := [⟨st.nextId, 0, st.num⟩] }
      ⟨st.nextId, 0, st.num⟩ false [] := by
  simp only [kmem_cache_alloc, hpart, hfree, cache_grow, hb, if_neg, if_false]

/-- Effect of one `kmem_cache_alloc` call: the classification invariant is
preserved; a failed call changes no object counts; a successful call
returning an object of slab `oid` raises that slab's count and the total by
one and changes no other slab's count. -/
theorem kmem_cache_alloc_effect (st : CacheState) (hinv : CacheInv st) :
    CacheInv (kmem_cache_alloc st).2 ∧
    ((kmem_cache_alloc st).1 = none →
      totalInuse (kmem_cache_alloc st).2 = totalInuse st ∧
      (∀ j, inuseOf (kmem_cache_alloc st).2 j = inuseOf st j)) ∧
    (∀ oid, (kmem_cache_alloc st).1 = some oid →
      totalInuse (kmem_cache_alloc st).2 = totalInuse st + 1 ∧
      inuseOf (kmem_cache_alloc st).2 oid = inuseOf st oid + 1 ∧
      (∀ j, j ≠ oid → inuseOf (kmem_cache_alloc st).2 j = inuseOf st j)) := by
  rcases hpart : st.slabsPart with - | ⟨s, R⟩
  · rcases hfree : st.slabsFree with - | ⟨s, R⟩
    · by_cases hb : st.growBudget = 0
      · -- growth failure: only the error counter moves
        rw [alloc_eq_grow_fail st hpart hfree hb]
        refine ⟨?_, ?_, ?_⟩
        · rcases hinv with ⟨h1, h2, h3, h4, h5, h6, h7⟩
          exact ⟨h1, h2, h3, h4, fun x hx => h5 x hx, h6, fun x hx => h7 x hx⟩
        · intro _
          exact ⟨rfl, fun j => rfl⟩
        · intro oid h
          cases h
      · -- growth succeeds and the fresh slab serves the object
        rw [alloc_eq_grow st hpart hfree hb]
        have hnum1 : 1 ≤ st.num := hinv.1
        have hflen : ¬(Slab.mk st.nextId 0 st.num).flen = 0 := by
          simp only
          omega
        unfold allocFrom
        rw [if_neg hflen]
        rw [if_neg (by simp : ¬(false = true))]
        have hallSt : allSlabs st = st.slabsFull := by
          unfold allSlabs
          rw [hpart, hfree]
          simp
        have hfresh : ∀ x ∈ st.slabsFull, x.id ≠ st.nextId := by
          intro x hx
          have := hinv.2.2.2.2.2.2 x (by rw [hallSt]; exact hx)
          omega
        have hfiltF : st.slabsFull.filter (fun s => s.id == st.nextId) = [] := by
          rw [List.filter_eq_nil_iff]
          intro x hx
          simp only [beq_iff_eq]
          exact hfresh x hx
        have hinuseSt : inuseOf st st.nextId = 0 := by
          unfold inuseOf
          rw [hallSt, hfiltF]
          rfl
        have hsums : ∀ x ∈ st.slabsFull, x.inuse + x.flen = st.num := by
          intro x hx
          exact hinv.2.2.2.2.1 x (by rw [hallSt]; exact hx)
        have hfull : ∀ x ∈ st.slabsFull, x.inuse = st.num :=
          fun x hx => hinv.2.1 x hx
        have hnd : (st.slabsFull.map Slab.id).Nodup := by
          have h6 := hinv.2.2.2.2.2.1
          rw [hallSt] at h6
          exact h6
        have hbound : ∀ x ∈ st.slabsFull, x.id < st.nextId := by
          intro x hx
          exact hinv.2.2.2.2.2.2 x (by rw [hallSt]; exact hx)
        by_cases hful : (0 : Nat) + 1 = st.num
        · rw [if_pos (by simpa using hful)]
          refine ⟨?_, ?_, ?_⟩
          · refine ⟨hinv.1, ?_, ?_, ?_, ?_, ?_, ?_⟩
            · intro x hx
              rcases List.mem_cons.mp hx with rfl | hx
              · exact hful
              · exact hfull x hx
            · intro x hx
              rw [hpart] at hx
              cases hx
            · intro x hx
              cases hx
            · intro x hx
              rcases List.mem_cons.mp hx with rfl | hx
              · show 0 + 1 + (st.num - 1) = st.num
                omega
              · rcases List.mem_append.mp hx with hx | hx
                · rcases List.mem_append.mp hx with hx | hx
                  · exact hsums x hx
                  · rw [hpart] at hx
                    cases hx
                · cases hx
            · show (((⟨st.nextId, 0 + 1, st.num - 1⟩ : Slab) ::
                ((st.slabsFull ++ st.slabsPart) ++ [])).map Slab.id).Nodup
              rw [hpart]
              simp only [List.append_nil, List.map_cons, List.nodup_cons]
              refine ⟨?_, hnd⟩
              intro hmem
              rcases List.mem_map.mp hmem with ⟨x, hx1, hx2⟩
              exact hfresh x hx1 hx2
            · intro x hx
              rcases List.mem_cons.mp hx with rfl | hx
              · show st.nextId < st.nextId + 1
                omega
              · rcases List.mem_append.mp hx with hx | hx
                · rcases List.mem_append.mp hx with hx | hx
                  · exact Nat.lt_succ_of_lt (hbound x hx)
                  · rw [hpart] at hx
                    cases hx
                · cases hx
          · intro h
            cases h
          · intro oid h
            have hoid : st.nextId = oid := Option.some.inj h
            subst hoid
            refine ⟨?_, ?_, ?_⟩
            · show ((((⟨st.nextId, 0 + 1, st.num - 1⟩ : Slab) ::
                ((st.slabsFull ++ st.slabsPart) ++ [])).map Slab.inuse).sum)
                = totalInuse st + 1
              rw [hpart]
              unfold totalInuse
              rw [hallSt]
              simp only [List.append_nil, List.map_cons, List.sum_cons]
              omega
            · show (((((⟨st.nextId, 0 + 1, st.num - 1⟩ : Slab) ::
                ((st.slabsFull ++ st.slabsPart) ++ [])).filter
                  (fun s => s.id == st.nextId)).map Slab.inuse).sum)
                = inuseOf st st.nextId + 1
              rw [hpart, hinuseSt]
              rw [List.filter_cons, if_pos (by simp)]
              simp [hfiltF]
            · intro j hj
              show (((((⟨st.nextId, 0 + 1, st.num - 1⟩ : Slab) ::
                ((st.slabsFull ++ st.slabsPart) ++ [])).filter
                  (fun s => s.id == j)).map Slab.inuse).sum)
                = inuseOf st j
              rw [hpart]
              unfold inuseOf
              rw [hallSt]
              rw [List.filter_cons, if_neg (by
                simp only [beq_iff_eq]
                exact fun hc => hj hc.symm)]
              simp
        · rw [if_neg (by simpa using hful)]
          rw [if_pos (by simp)]
          have hnum2 : 2 ≤ st.num := by omega
          refine ⟨?_, ?_, ?_⟩
          · refine ⟨hinv.1, ?_, ?_, ?_, ?_, ?_, ?_⟩
            · intro x hx
              exact hfull x hx
            · intro x hx
              rcases List.mem_cons.mp hx with rfl | hx
              · show 0 < 0 + 1 ∧ 0 + 1 < st.num
                omega
              · rw [hpart] at hx
                cases hx
            · intro x hx
              cases hx
            · intro x hx
              rcases List.mem_append.mp hx with hx | hx
              · rcases List.mem_append.mp hx with hx | hx
                · exact hsums x hx
                · rcases List.mem_cons.mp hx with rfl | hx
                  · show 0 + 1 + (st.num - 1) = st.num
                    omega
                  · rw [hpart] at hx
                    cases hx
              · cases hx
            · show (((st.slabsFull ++ ((⟨st.nextId, 0 + 1, st.num - 1⟩ : Slab)
                :: st.slabsPart)) ++ []).map Slab.id).Nodup
              rw [hpart]
              have hperm := (@List.perm_middle Slab
                (⟨st.nextId, 0 + 1, st.num - 1⟩ : Slab)
                st.slabsFull ([] : List Slab)).map Slab.id
              simp only [List.append_nil]
              rw [hperm.nodup_iff]
              simp only [List.append_nil, List.map_cons, List.nodup_cons]
              refine ⟨?_, hnd⟩
              intro hmem
              rcases List.mem_map.mp hmem with ⟨x, hx1, hx2⟩
              exact hfresh x hx1 hx2
            · intro x hx
              rcases List.mem_append.mp hx with hx | hx
              · rcases List.mem_append.mp hx with hx | hx
                · exact Nat.lt_succ_of_lt (hbound x hx)
                · rcases List.mem_cons.mp hx with rfl | hx
                  · show st.nextId < st.nextId + 1
                    omega
                  · rw [hpart] at hx
                    cases hx
              · cases hx
          · intro h
            cases h
          · intro oid h
            have hoid : st.nextId = oid := Option.some.inj h
            subst hoid
            refine ⟨?_, ?_, ?_⟩
            · show ((((st.slabsFull ++ ((⟨st.nextId, 0 + 1, st.num - 1⟩ : Slab)
                :: st.slabsPart)) ++ []).map Slab.inuse).sum)
                = totalInuse st + 1
              rw [hpart]
              unfold totalInuse
              rw [hallSt]
              simp only [List.append_nil, List.map_cons, List.sum_cons,
                List.map_append, List.sum_append, List.map_nil, List.sum_nil]
              omega
            · show (((((st.slabsFull ++ ((⟨st.nextId, 0 + 1, st.num - 1⟩ : Slab)
                :: st.slabsPart)) ++ []).filter
                  (fun (s : Slab) => s.id == st.nextId)).map Slab.inuse).sum)
                = inuseOf st st.nextId + 1
              rw [hpart, hinuseSt]
              simp only [List.append_nil, List.filter_append, hfiltF]
              rw [List.filter_cons, if_pos (by simp)]
              simp
            · intro j hj
              show (((((st.slabsFull ++ ((⟨st.nextId, 0 + 1, st.num - 1⟩ : Slab)
                :: st.slabsPart)) ++ []).filter
                  (fun (s : Slab) => s.id == j)).map Slab.inuse).sum)
                = inuseOf st j
              rw [hpart]
              unfold inuseOf
              rw [hallSt]
              simp only [List.append_nil, List.filter_append]
              rw [List.filter_cons, if_neg (by
                simp only [beq_iff_eq]
                exact fun hc => hj hc.symm)]
              simp
    · -- allocation from the head of the free list
      rw [alloc_eq_free st s R hpart hfree]
      have hsfree : s ∈ st.slabsFree := by
        rw [hfree]
        exact List.mem_cons_self _ _
      have hsall : s ∈ allSlabs st := by
        unfold allSlabs
        exact List.mem_append.mpr (Or.inr hsfree)
      have hs0 : s.inuse = 0 := hinv.2.2.2.1 s hsfree
      have hssum : s.inuse + s.flen = st.num := hinv.2.2.2.2.1 s hsall
      have hflen : ¬s.flen = 0 := by
        have := hinv.1
        omega
      unfold allocFrom
      rw [if_neg hflen]
      rw [if_neg (by simp : ¬(false = true))]
      have hallStEq : allSlabs st =
          (st.slabsFull ++ st.slabsPart) ++ (s :: R) := by
        unfold allSlabs
        rw [hfree]
      have hA : List.Perm (allSlabs st)
          (s :: ((st.slabsFull ++ st.slabsPart) ++ R)) := by
        rw [hallStEq]
        exact List.perm_middle
      by_cases hful : s.inuse + 1 = st.num
      · rw [if_pos hful]
        have hB : List.Perm (allSlabs { st with
            slabsFree := R
            slabsFull := ⟨s.id, s.inuse + 1, s.flen - 1⟩ :: st.slabsFull
            active := st.active + 1 })
            ((⟨s.id, s.inuse + 1, s.flen - 1⟩ : Slab) ::
              ((st.slabsFull ++ st.slabsPart) ++ R)) := List.Perm.refl _
        have hpool := pool_core st _ s ⟨s.id, s.inuse + 1, s.flen - 1⟩ _
          hA hB rfl (by simp only; omega) (le_refl _) rfl hinv
        have hcount := count_core st _ s ⟨s.id, s.inuse + 1, s.flen - 1⟩ _
          hA hB rfl (by simp only)
        refine ⟨?_, ?_, ?_⟩
        · refine ⟨hinv.1, ?_, ?_, ?_, hpool.1, hpool.2.1, hpool.2.2⟩
          · intro x hx
            rcases List.mem_cons.mp hx with rfl | hx
            · simpa using hful
            · exact hinv.2.1 x hx
          · intro x hx
            exact hinv.2.2.1 x hx
          · intro x hx
            have hxf : x ∈ st.slabsFree := by
              rw [hfree]
              exact List.mem_cons_of_mem _ hx
            exact hinv.2.2.2.1 x hxf
        · intro h
          cases h
        · intro oid h
          have hoid : s.id = oid := Option.some.inj h
          subst hoid
          exact hcount
      · rw [if_neg hful]
        rw [if_pos (by omega : s.inuse + 1 = 1)]
        have hB : List.Perm (allSlabs { st with
            slabsFree := R
            slabsPart := ⟨s.id, s.inuse + 1, s.flen - 1⟩ :: st.slabsPart
            active := st.active + 1 })
            ((⟨s.id, s.inuse + 1, s.flen - 1⟩ : Slab) ::
              ((st.slabsFull ++ st.slabsPart) ++ R)) :=
          List.Perm.append_right R List.perm_middle
        have hpool := pool_core st _ s ⟨s.id, s.inuse + 1, s.flen - 1⟩ _
          hA hB rfl (by simp only; omega) (le_refl _) rfl hinv
        have hcount := count_core st _ s ⟨s.id, s.inuse + 1, s.flen - 1⟩ _
          hA hB rfl (by simp only)
        refine ⟨?_, ?_, ?_⟩
        · refine ⟨hinv.1, ?_, ?_, ?_, hpool.1, hpool.2.1, hpool.2.2⟩
          · intro x hx
            exact hinv.2.1 x hx
          · intro x hx
            rcases List.mem_cons.mp hx with rfl | hx
            · constructor
              · show 0 < s.inuse + 1
                omega
              · show s.inuse + 1 < st.num
                have := hinv.1
                omega
            · exact hinv.2.2.1 x hx
          · intro x hx
            have hxf : x ∈ st.slabsFree := by
              rw [hfree]
              exact List.mem_cons_of_mem _ hx
            exact hinv.2.2.2.1 x hxf
        · intro h
          cases h
        · intro oid h
          have hoid : s.id = oid := Option.some.inj h
          subst hoid
          exact hcount
  · -- allocation from the head of the partial list
    rw [alloc_eq_part st s R hpart]
    have hspart : s ∈ st.slabsPart := by
      rw [hpart]
      exact List.mem_cons_self _ _
    have hsall : s ∈ allSlabs st := by
      unfold allSlabs
      exact List.mem_append.mpr (Or.inl (List.mem_append.mpr (Or.inr hspart)))
    have hscls : 0 < s.inuse ∧ s.inuse < st.num := hinv.2.2.1 s hspart
    have hssum : s.inuse + s.flen = st.num := hinv.2.2.2.2.1 s hsall
    have hflen : ¬s.flen = 0 := by omega
    unfold allocFrom
    rw [if_neg hflen]
    rw [if_pos (rfl : (true : Bool) = true)]
    have hallStEq : allSlabs st =
        (st.slabsFull ++ (s :: R)) ++ st.slabsFree := by
      unfold allSlabs
      rw [hpart]
    have hA : List.Perm (allSlabs st)
        (s :: ((st.slabsFull ++ R) ++ st.slabsFree)) := by
      rw [hallStEq]
      exact List.Perm.append_right st.slabsFree List.perm_middle
    by_cases hful : s.inuse + 1 = st.num
    · rw [if_pos hful]
      have hB : List.Perm (allSlabs { st with
          slabsPart := R
          slabsFull := ⟨s.id, s.inuse + 1, s.flen - 1⟩ :: st.slabsFull
          active := st.active + 1 })
          ((⟨s.id, s.inuse + 1, s.flen - 1⟩ : Slab) ::
            ((st.slabsFull ++ R) ++ st.slabsFree)) := List.Perm.refl _
      have hpool := pool_core st _ s ⟨s.id, s.inuse + 1, s.flen - 1⟩ _
        hA hB rfl (by simp only; omega) (le_refl _) rfl hinv
      have hcount := count_core st _ s ⟨s.id, s.inuse + 1, s.flen - 1⟩ _
        hA hB rfl (by simp only)
      refine ⟨?_, ?_, ?_⟩
      · refine ⟨hinv.1, ?_, ?_, ?_, hpool.1, hpool.2.1, hpool.2.2⟩
        · intro x hx
          rcases List.mem_cons.mp hx with rfl | hx
          · simpa using hful
          · exact hinv.2.1 x hx
        · intro x hx
          have hxp : x ∈ st.slabsPart := by
            rw [hpart]
            exact List.mem_cons_of_mem _ hx
          exact hinv.2.2.1 x hxp
        · intro x hx
          exact hinv.2.2.2.1 x hx
      · intro h
        cases h
      · intro oid h
        have hoid : s.id = oid := Option.some.inj h
        subst hoid
        exact hcount
    · rw [if_neg hful]
      have hB : List.Perm (allSlabs { st with
          slabsPart := ⟨s.id, s.inuse + 1, s.flen - 1⟩ :: R
          active := st.active + 1 })
          ((⟨s.id, s.inuse + 1, s.flen - 1⟩ : Slab) ::
            ((st.slabsFull ++ R) ++ st.slabsFree)) :=
        List.Perm.append_right st.slabsFree List.perm_middle
      have hpool := pool_core st _ s ⟨s.id, s.inuse + 1, s.flen - 1⟩ _
        hA hB rfl (by simp only; omega) (le_refl _) rfl hinv
      have hcount := count_core st _ s ⟨s.id, s.inuse + 1, s.flen - 1⟩ _
        hA hB rfl (by simp only)
      refine ⟨?_, ?_, ?_⟩
      · refine ⟨hinv.1, ?_, ?_, ?_, hpool.1, hpool.2.1, hpool.2.2⟩
        · intro x hx
          exact hinv.2.1 x hx
        · intro x hx
          rcases List.mem_cons.mp hx with rfl | hx
          · constructor
            · show 0 < s.inuse + 1
              omega
            · show s.inuse + 1 < st.num
              omega
          · have hxp : x ∈ st.slabsPart := by
              rw [hpart]
              exact List.mem_cons_of_mem _ hx
            exact hinv.2.2.1 x hxp
        · intro x hx
          exact hinv.2.2.2.1 x hx
      · intro h
        cases h
      · intro oid h
        have hoid : s.id = oid := Option.some.inj h
        subst hoid
        exact hcount

theorem free_eq_tofree (st : CacheState) (oid : Nat) (s : Slab)
    (hfound : lookupId (allSlabs st) oid = some s)
    (h0 : ¬s.inuse = 0) (h1 : s.inuse - 1 = 0) :
    kmem_cache_free st oid = { st with
      slabsFull := removeId st.slabsFull oid
      slabsPart := removeId st.slabsPart oid
      slabsFree := ⟨s.id, s.inuse - 1, s.flen + 1⟩ :: removeId st.slabsFree oid
      active := st.active - 1 } := by
  simp only [kmem_cache_free, hfound, if_neg h0, if_pos h1]

theorem free_eq_topart (st : CacheState) (oid : Nat) (s : Slab)
    (hfound : lookupId (allSlabs st) oid = some s)
    (h0 : ¬s.inuse = 0) (h1 : ¬s.inuse - 1 = 0)
    (h2 : s.inuse - 1 = st.num - 1) :
    kmem_cache_free st oid = { st with
      slabsFull := removeId st.slabsFull oid
      slabsPart := ⟨s.id, s.inuse - 1, s.flen + 1⟩ :: removeId st.slabsPart oid
      slabsFree := removeId st.slabsFree oid
      active := st.active - 1 } := by
  simp only [kmem_cache_free, hfound, if_neg h0, if_neg h1, if_pos h2]

theorem free_eq_inplace (st : CacheState) (oid : Nat) (s : Slab)
    (hfound : lookupId (allSlabs st) oid = some s)
    (h0 : ¬s.inuse = 0) (h1 : ¬s.inuse - 1 = 0)
    (h2 : ¬s.inuse - 1 = st.num - 1) :
    kmem_cache_free st oid = { st with
      slabsFull := replaceId st.slabsFull ⟨s.id, s.inuse - 1, s.flen + 1⟩
      slabsPart := replaceId st.slabsPart ⟨s.id, s.inuse - 1, s.flen + 1⟩
      slabsFree := replaceId st.slabsFree ⟨s.id, s.inuse - 1, s.flen + 1⟩
      active := st.active - 1 } := by
  simp only [kmem_cache_free, hfound, if_neg h0, if_neg h1, if_neg h2]

/-- Distinct identities across the whole pool split into per-list
distinctness and pairwise disjointness of the three lists. -/
theorem nodup_parts (st : CacheState)
    (h6 : ((allSlabs st).map Slab.id).Nodup) :
    (st.slabsFull.map Slab.id).Nodup ∧
    (st.slabsPart.map Slab.id).Nodup ∧
    (st.slabsFree.map Slab.id).Nodup ∧
    (∀ i, i ∈ st.slabsFull.map Slab.id →
      i ∉ st.slabsPart.map Slab.id ∧ i ∉ st.slabsFree.map Slab.id) ∧
    (∀ i, i ∈ st.slabsPart.map Slab.id →
      i ∉ st.slabsFull.map Slab.id ∧ i ∉ st.slabsFree.map Slab.id) := by
  have heq : (allSlabs st).map Slab.id =
      (st.slabsFull.map Slab.id ++ st.slabsPart.map Slab.id) ++
        st.slabsFree.map Slab.id := by
    unfold allSlabs
    simp [List.map_append]
  rw [heq] at h6
  rcases List.nodup_append.mp h6 with ⟨h12, h3, hd123⟩
  rcases List.nodup_append.mp h12 with ⟨h1, h2, hd12⟩
  refine ⟨h1, h2, h3, ?_, ?_⟩
  · intro i hi
    refine ⟨fun hc => hd12 hi hc, fun hc => ?_⟩
    exact hd123 (List.mem_append.mpr (Or.inl hi)) hc
  · intro i hi
    refine ⟨fun hc => hd12 hc hi, fun hc => ?_⟩
    exact hd123 (List.mem_append.mpr (Or.inr hi)) hc

/-- Effect of one valid `kmem_cache_free` call (the object's slab exists and
has an object out): the classification invariant is preserved, the total
and the slab's own live count drop by one, and other slabs' counts are
untouched. -/
theorem kmem_cache_free_effect (st : CacheState) (oid : Nat) (s : Slab)
    (hinv : CacheInv st)
    (hfound : lookupId (allSlabs st) oid = some s) (hpos : 0 < s.inuse) :
    CacheInv (kmem_cache_free st oid) ∧
    totalInuse (kmem_cache_free st oid) + 1 = totalInuse st ∧
    inuseOf (kmem_cache_free st oid) oid + 1 = inuseOf st oid ∧
    (∀ j, j ≠ oid → inuseOf (kmem_cache_free st oid) j = inuseOf st j) := by
  rcases lookupId_mem (allSlabs st) oid s hfound with ⟨hsall, hsid⟩
  subst hsid
  have h0 : ¬s.inuse = 0 := by omega
  have hnum1 : 1 ≤ st.num := hinv.1
  have hssum : s.inuse + s.flen = st.num := hinv.2.2.2.2.1 s hsall
  rcases nodup_parts st hinv.2.2.2.2.2.1 with ⟨hndF, hndP, hndE, hdF, hdP⟩
  have hsloc : s ∈ st.slabsFull ∨ s ∈ st.slabsPart := by
    unfold allSlabs at hsall
    rcases List.mem_append.mp hsall with hx | hx
    · rcases List.mem_append.mp hx with hx | hx
      · exact Or.inl hx
      · exact Or.inr hx
    · exfalso
      have := hinv.2.2.2.1 s hx
      omega
  rcases hsloc with hsF | hsP
  · -- the slab is on the full list
    have hsn : s.inuse = st.num := hinv.2.1 s hsF
    have hmemF : s.id ∈ st.slabsFull.map Slab.id :=
      List.mem_map_of_mem Slab.id hsF
    have hremP : removeId st.slabsPart s.id = st.slabsPart :=
      removeId_eq_self st.slabsPart s.id (hdF s.id hmemF).1
    have hremE : removeId st.slabsFree s.id = st.slabsFree :=
      removeId_eq_self st.slabsFree s.id (hdF s.id hmemF).2
    have hlookF : lookupId st.slabsFull s.id = some s :=
      lookupId_of_mem_nodup st.slabsFull s hndF hsF
    have hpermF : List.Perm st.slabsFull (s :: removeId st.slabsFull s.id) :=
      lookupId_perm st.slabsFull s.id s hlookF
    have hallStPerm : List.Perm (allSlabs st)
        (s :: ((removeId st.slabsFull s.id ++ st.slabsPart) ++ st.slabsFree)) :=
      (hpermF.append_right st.slabsPart).append_right st.slabsFree
    have hmemRemF : ∀ x ∈ removeId st.slabsFull s.id, x ∈ st.slabsFull := by
      intro x hx
      exact hpermF.mem_iff.mpr (List.mem_cons_of_mem _ hx)
    by_cases h1 : s.inuse - 1 = 0
    · -- the slab empties: it moves to the free list
      rw [free_eq_tofree st s.id s hfound h0 h1]
      rw [hremP, hremE]
      have hB : List.Perm (allSlabs { st with
          slabsFull := removeId st.slabsFull s.id
          slabsPart := st.slabsPart
          slabsFree := ⟨s.id, s.inuse - 1, s.flen + 1⟩ :: st.slabsFree
          active := st.active - 1 })
          ((⟨s.id, s.inuse - 1, s.flen + 1⟩ : Slab) ::
            ((removeId st.slabsFull s.id ++ st.slabsPart) ++ st.slabsFree)) :=
        List.perm_middle
      have hpool := pool_core st _ s ⟨s.id, s.inuse - 1, s.flen + 1⟩ _
        hallStPerm hB rfl (by simp only; omega) (le_refl _) rfl hinv
      have hcount := count_core _ st ⟨s.id, s.inuse - 1, s.flen + 1⟩ s _
        hB hallStPerm rfl (by simp only; omega)
      refine ⟨?_, hcount.1.symm, hcount.2.1.symm, ?_⟩
      · refine ⟨hinv.1, ?_, ?_, ?_, hpool.1, hpool.2.1, hpool.2.2⟩
        · intro x hx
          exact hinv.2.1 x (hmemRemF x hx)
        · intro x hx
          exact hinv.2.2.1 x hx
        · intro x hx
          rcases List.mem_cons.mp hx with rfl | hx
          · exact h1
          · exact hinv.2.2.2.1 x hx
      · intro j hj
        exact (hcount.2.2 j hj).symm
    · -- the slab leaves the full list for the partial list
      rw [free_eq_topart st s.id s hfound h0 h1 (by omega)]
      rw [hremP, hremE]
      have hB : List.Perm (allSlabs { st with
          slabsFull := removeId st.slabsFull s.id
          slabsPart := ⟨s.id, s.inuse - 1, s.flen + 1⟩ :: st.slabsPart
          slabsFree := st.slabsFree
          active := st.active - 1 })
          ((⟨s.id, s.inuse - 1, s.flen + 1⟩ : Slab) ::
            ((removeId st.slabsFull s.id ++ st.slabsPart) ++ st.slabsFree)) :=
        List.Perm.append_right st.slabsFree List.perm_middle
      have hpool := pool_core st _ s ⟨s.id, s.inuse - 1, s.flen + 1⟩ _
        hallStPerm hB rfl (by simp only; omega) (le_refl _) rfl hinv
      have hcount := count_core _ st ⟨s.id, s.inuse - 1, s.flen + 1⟩ s _
        hB hallStPerm rfl (by simp only; omega)
      refine ⟨?_, hcount.1.symm, hcount.2.1.symm, ?_⟩
      · refine ⟨hinv.1, ?_, ?_, ?_, hpool.1, hpool.2.1, hpool.2.2⟩
        · intro x hx
          exact hinv.2.1 x (hmemRemF x hx)
        · intro x hx
          rcases List.mem_cons.mp hx with rfl | hx
          · constructor
            · show 0 < s.inuse - 1
              omega
            · show s.inuse - 1 < st.num
              omega
          · exact hinv.2.2.1 x hx
        · intro x hx
          exact hinv.2.2.2.1 x hx
      · intro j hj
        exact (hcount.2.2 j hj).symm
  · -- the slab is on the partial list
    have hscls : 0 < s.inuse ∧ s.inuse < st.num := hinv.2.2.1 s hsP
    have hmemP : s.id ∈ st.slabsPart.map Slab.id :=
      List.mem_map_of_mem Slab.id hsP
    have hremF : removeId st.slabsFull s.id = st.slabsFull :=
      removeId_eq_self st.slabsFull s.id (hdP s.id hmemP).1
    have hremE : removeId st.slabsFree s.id = st.slabsFree :=
      removeId_eq_self st.slabsFree s.id (hdP s.id hmemP).2
    have hlookP : lookupId st.slabsPart s.id = some s :=
      lookupId_of_mem_nodup st.slabsPart s hndP hsP
    have hpermP : List.Perm st.slabsPart (s :: removeId st.slabsPart s.id) :=
      lookupId_perm st.slabsPart s.id s hlookP
    have hallStPerm : List.Perm (allSlabs st)
        (s :: ((st.slabsFull ++ removeId st.slabsPart s.id) ++ st.slabsFree)) :=
      ((hpermP.append_left st.slabsFull).append_right st.slabsFree).trans
        (List.Perm.append_right st.slabsFree List.perm_middle)
    have hmemRemP : ∀ x ∈ removeId st.slabsPart s.id, x ∈ st.slabsPart := by
      intro x hx
      exact hpermP.mem_iff.mpr (List.mem_cons_of_mem _ hx)
    by_cases h1 : s.inuse - 1 = 0
    · -- the slab empties: it moves to the free list
      rw [free_eq_tofree st s.id s hfound h0 h1]
      rw [hremF, hremE]
      have hB : List.Perm (allSlabs { st with
          slabsFull := st.slabsFull
          slabsPart := removeId st.slabsPart s.id
          slabsFree := ⟨s.id, s.inuse - 1, s.flen + 1⟩ :: st.slabsFree
          active := st.active - 1 })
          ((⟨s.id, s.inuse - 1, s.flen + 1⟩ : Slab) ::
            ((st.slabsFull ++ removeId st.slabsPart s.id) ++ st.slabsFree)) :=
        List.perm_middle
      have hpool := pool_core st _ s ⟨s.id, s.inuse - 1, s.flen + 1⟩ _
        hallStPerm hB rfl (by simp only; omega) (le_refl _) rfl hinv
      have hcount := count_core _ st ⟨s.id, s.inuse - 1, s.flen + 1⟩ s _
        hB hallStPerm rfl (by simp only; omega)
      refine ⟨?_, hcount.1.symm, hcount.2.1.symm, ?_⟩
      · refine ⟨hinv.1, ?_, ?_, ?_, hpool.1, hpool.2.1, hpool.2.2⟩
        · intro x hx
          exact hinv.2.1 x hx
        · intro x hx
          exact hinv.2.2.1 x (hmemRemP x hx)
        · intro x hx
          rcases List.mem_cons.mp hx with rfl | hx
          · exact h1
          · exact hinv.2.2.2.1 x hx
      · intro j hj
        exact (hcount.2.2 j hj).symm
    · -- the count stays positive and below capacity: the slab stays partial
      have h2 : ¬s.inuse - 1 = st.num - 1 := by omega
      rw [free_eq_inplace st s.id s hfound h0 h1 h2]
      have hrepF : replaceId st.slabsFull ⟨s.id, s.inuse - 1, s.flen + 1⟩ =
          st.slabsFull :=
        replaceId_eq_self st.slabsFull _ (hdP s.id hmemP).1
      have hrepE : replaceId st.slabsFree ⟨s.id, s.inuse - 1, s.flen + 1⟩ =
          st.slabsFree :=
        replaceId_eq_self st.slabsFree _ (hdP s.id hmemP).2
      rw [hrepF, hrepE]
      have hlookP2 : lookupId st.slabsPart
          (⟨s.id, s.inuse - 1, s.flen + 1⟩ : Slab).id = some s := hlookP
      rcases replaceId_decomp st.slabsPart ⟨s.id, s.inuse - 1, s.flen + 1⟩ s
          hlookP2 with ⟨P₁, P₂, hPdec, hPrep⟩
      rw [hPrep]
      have hA2 : List.Perm (allSlabs st)
          (s :: ((st.slabsFull ++ (P₁ ++ P₂)) ++ st.slabsFree)) := by
        have hstep : List.Perm st.slabsPart (s :: (P₁ ++ P₂)) := by
          rw [hPdec]
          exact List.perm_middle
        exact ((hstep.append_left st.slabsFull).append_right st.slabsFree).trans
          (List.Perm.append_right st.slabsFree List.perm_middle)
      have hB : List.Perm (allSlabs { st with
          slabsFull := st.slabsFull
          slabsPart := P₁ ++ ⟨s.id, s.inuse - 1, s.flen + 1⟩ :: P₂
          slabsFree := st.slabsFree
          active := st.active - 1 })
          ((⟨s.id, s.inuse - 1, s.flen + 1⟩ : Slab) ::
            ((st.slabsFull ++ (P₁ ++ P₂)) ++ st.slabsFree)) := by
        have hstep : List.Perm (P₁ ++ ⟨s.id, s.inuse - 1, s.flen + 1⟩ :: P₂)
            ((⟨s.id, s.inuse - 1, s.flen + 1⟩ : Slab) :: (P₁ ++ P₂)) :=
          List.perm_middle
        exact ((hstep.append_left st.slabsFull).append_right st.slabsFree).trans
          (List.Perm.append_right st.slabsFree List.perm_middle)
      have hpool := pool_core st _ s ⟨s.id, s.inuse - 1, s.flen + 1⟩ _
        hA2 hB rfl (by simp only; omega) (le_refl _) rfl hinv
      have hcount := count_core _ st ⟨s.id, s.inuse - 1, s.flen + 1⟩ s _
        hB hA2 rfl (by simp only; omega)
      have hPsub : ∀ x, x ∈ P₁ ∨ x ∈ P₂ → x ∈ st.slabsPart := by
        intro x hx
        rw [hPdec]
        rcases hx with hx | hx
        · exact List.mem_append.mpr (Or.inl hx)
        · exact List.mem_append.mpr (Or.inr (List.mem_cons_of_mem _ hx))
      refine ⟨?_, hcount.1.symm, hcount.2.1.symm, ?_⟩
      · refine ⟨hinv.1, ?_, ?_, ?_, hpool.1, hpool.2.1, hpool.2.2⟩
        · intro x hx
          exact hinv.2.1 x hx
        · intro x hx
          rcases List.mem_append.mp hx with hx | hx
          · exact hinv.2.2.1 x (hPsub x (Or.inl hx))
          · rcases List.mem_cons.mp hx with rfl | hx
            · constructor
              · show 0 < s.inuse - 1
                omega
              · show s.inuse - 1 < st.num
                omega
            · exact hinv.2.2.1 x (hPsub x (Or.inr hx))
        · intro x hx
          exact hinv.2.2.2.1 x hx
      · intro j hj
        exact (hcount.2.2 j hj).symm

theorem free_eq_none (st : CacheState) (oid : Nat)
    (h : lookupId (allSlabs st) oid = none) : kmem_cache_free st oid = st := by
  simp only [kmem_cache_free, h]

theorem free_eq_zero (st : CacheState) (oid : Nat) (s : Slab)
    (hfound : lookupId (allSlabs st) oid = some s) (hz : s.inuse = 0) :
    kmem_cache_free st oid = st := by
  simp only [kmem_cache_free, hfound, if_pos hz]

/-- `kmem_cache_free` preserves the classification invariant on every call,
including the out-of-trace no-op cases. -/
theorem kmem_cache_free_inv (st : CacheState) (oid : Nat)
    (hinv : CacheInv st) : CacheInv (kmem_cache_free st oid) := by
  cases hl : lookupId (allSlabs st) oid with
  | none =>
    rw [free_eq_none st oid hl]
    exact hinv
  | some s =>
    by_cases hz : s.inuse = 0
    · rw [free_eq_zero st oid s hl hz]
      exact hinv
    · exact (kmem_cache_free_effect st oid s hinv hl (by omega)).1

theorem allocFrom_num (st : CacheState) (s : Slab) (b : Bool)
    (rest : List Slab) : (allocFrom st s b rest).2.num = st.num := by
  unfold allocFrom
  repeat' split
  all_goals rfl

theorem kmem_cache_alloc_num (st : CacheState) :
    (kmem_cache_alloc st).2.num = st.num := by
  cases hpart : st.slabsPart with
  | cons s R =>
    rw [alloc_eq_part st s R hpart]
    exact allocFrom_num st s true R
  | nil =>
    cases hfree : st.slabsFree with
    | cons s R =>
      rw [alloc_eq_free st s R hpart hfree]
      exact allocFrom_num st s false R
    | nil =>
      by_cases hb : st.growBudget = 0
      · rw [alloc_eq_grow_fail st hpart hfree hb]
      · rw [alloc_eq_grow st hpart hfree hb]
        exact allocFrom_num _ _ false []

theorem kmem_cache_free_num (st : CacheState) (oid : Nat) :
    (kmem_cache_free st oid).num = st.num := by
  unfold kmem_cache_free
  repeat' split
  all_goals rfl

/-- The objects-per-slab capacity is a constant of the cache along any
trace. -/
theorem runCacheOps_num : ∀ (ops : List CacheOp) (st : CacheState),
    (runCacheOps st ops).num = st.num := by
  intro ops
  induction ops with
  | nil =>
    intro st
    rfl
  | cons op rest ih =>
    intro st
    cases op with
    | alloc =>
      have h1 : runCacheOps st (.alloc :: rest) =
          runCacheOps (kmem_cache_alloc st).2 rest := rfl
      rw [h1, ih, kmem_cache_alloc_num]
    | free oid =>
      have h1 : runCacheOps st (.free oid :: rest) =
          runCacheOps (kmem_cache_free st oid) rest := rfl
      rw [h1, ih, kmem_cache_free_num]

theorem initCache_inv (num budget : Nat) (hnum : 1 ≤ num) :
    CacheInv (initCache num budget) := by
  refine ⟨hnum, ?_, ?_, ?_, ?_, ?_, ?_⟩ <;> simp [initCache, allSlabs]

/-- The classification invariant holds after any trace of cache calls. -/
theorem runCacheOps_inv : ∀ (ops : List CacheOp) (st : CacheState),
    CacheInv st → CacheInv (runCacheOps st ops) := by
  intro ops
  induction ops with
  | nil =>
    intro st h
    exact h
  | cons op rest ih =>
    intro st h
    cases op with
    | alloc => exact ih _ (kmem_cache_alloc_effect st h).1
    | free oid => exact ih _ (kmem_cache_free_inv st oid h)

/-- A positive live count for an identity produces the owning slab, found
by `lookupId`, with a positive count. -/
theorem inuseOf_pos_ex (st : CacheState) (oid : Nat)
    (hnd : ((allSlabs st).map Slab.id).Nodup) (hpos : 0 < inuseOf st oid) :
    ∃ s, 0 < s.inuse ∧ lookupId (allSlabs st) oid = some s := by
  have hne : ¬∀ x ∈ ((allSlabs st).filter
      (fun s => s.id == oid)).map Slab.inuse, x = 0 := by
    intro hall
    have h0 := List.sum_eq_zero hall
    unfold inuseOf at hpos
    omega
  push_neg at hne
  rcases hne with ⟨x, hx, hx0⟩
  rcases List.mem_map.mp hx with ⟨s, hsf, hxeq⟩
  rcases List.mem_filter.mp hsf with ⟨hsall, hsid⟩
  have hid : s.id = oid := by simpa using hsid
  refine ⟨s, ?_, ?_⟩
  · omega
  · rw [← hid]
    exact lookupId_of_mem_nodup (allSlabs st) s hnd hsall

/-- Effect of the rollback loop on a well-formed pending list: the
invariant survives, each identity's live count drops by its number of
pending frees, and the total drops by the list length. -/
theorem rollbackFree_effect : ∀ (acc : List Nat) (st : CacheState),
    CacheInv st → CanFree st acc →
    CacheInv (rollbackFree st acc) ∧
    (∀ j, inuseOf (rollbackFree st acc) j + acc.count j = inuseOf st j) ∧
    totalInuse (rollbackFree st acc) + acc.length = totalInuse st := by
  intro acc
  induction acc with
  | nil =>
    intro st hinv _
    refine ⟨hinv, ?_, ?_⟩
    · intro j
      simp [rollbackFree]
    · simp [rollbackFree]
  | cons oid rest ih =>
    intro st hinv hcan
    have hpos : 0 < inuseOf st oid := by
      have h1 := hcan oid
      have h2 : (oid :: rest).count oid = rest.count oid + 1 := by
        simp [List.count_cons]
      omega
    rcases inuseOf_pos_ex st oid hinv.2.2.2.2.2.1 hpos with ⟨s, hspos, hl⟩
    have heff := kmem_cache_free_effect st oid s hinv hl hspos
    have hcan2 : CanFree (kmem_cache_free st oid) rest := by
      intro j
      by_cases hj : j = oid
      · have h1 := hcan j
        have h2 : (oid :: rest).count j = rest.count j + 1 := by
          simp [List.count_cons, hj]
        have h3 : inuseOf (kmem_cache_free st oid) j + 1 = inuseOf st j := by
          rw [hj]
          exact heff.2.2.1
        omega
      · have h1 := hcan j
        have h2 : (oid :: rest).count j = rest.count j := by
          simp [List.count_cons, Ne.symm hj]
        have h3 := heff.2.2.2 j hj
        omega
    have hmain := ih (kmem_cache_free st oid) heff.1 hcan2
    have hrb : rollbackFree st (oid :: rest) =
        rollbackFree (kmem_cache_free st oid) rest := rfl
    rw [hrb]
    refine ⟨hmain.1, ?_, ?_⟩
    · intro j
      have h1 := hmain.2.1 j
      by_cases hj : j = oid
      · have h2 : (oid :: rest).count j = rest.count j + 1 := by
          simp [List.count_cons, hj]
        have h3 : inuseOf (kmem_cache_free st oid) j + 1 = inuseOf st j := by
          rw [hj]
          exact heff.2.2.1
        omega
      · have h2 : (oid :: rest).count j = rest.count j := by
          simp [List.count_cons, Ne.symm hj]
        have h3 := heff.2.2.2 j hj
        omega
    · have h1 := hmain.2.2
      have h2 := heff.2.1
      simp only [List.length_cons]
      omega

theorem bulk_succ_none (st : CacheState) (n : Nat) (acc : List Nat)
    (h : (kmem_cache_alloc st).1 = none) :
    kmem_cache_alloc_bulk st (n + 1) acc =
      (none, rollbackFree (kmem_cache_alloc st).2 acc) := by
  have hp : kmem_cache_alloc st = (none, (kmem_cache_alloc st).2) := by
    rw [← h]
  simp only [kmem_cache_alloc_bulk]
  rw [hp]

theorem bulk_succ_some (st : CacheState) (n : Nat) (acc : List Nat)
    (oid : Nat) (h : (kmem_cache_alloc st).1 = some oid) :
    kmem_cache_alloc_bulk st (n + 1) acc =
      kmem_cache_alloc_bulk (kmem_cache_alloc st).2 n (oid :: acc) := by
  have hp : kmem_cache_alloc st = (some oid, (kmem_cache_alloc st).2) := by
    rw [← h]
  simp only [kmem_cache_alloc_bulk]
  rw [hp]

/-- A failing bulk allocation ends with the invariant intact and all live
counts equal to the start state's counts less the pending rollback list. -/
theorem bulk_none_counts : ∀ (n : Nat) (st : CacheState) (acc : List Nat),
    CacheInv st → CanFree st acc →
    (kmem_cache_alloc_bulk st n acc).1 = none →
    CacheInv (kmem_cache_alloc_bulk st n acc).2 ∧
    (∀ j, inuseOf (kmem_cache_alloc_bulk st n acc).2 j + acc.count j =
      inuseOf st j) ∧
    totalInuse (kmem_cache_alloc_bulk st n acc).2 + acc.length =
      totalInuse st := by
  intro n
  induction n with
  | zero =>
    intro st acc hinv hcan hfail
    exact absurd hfail (by simp [kmem_cache_alloc_bulk])
  | succ n ih =>
    intro st acc hinv hcan hfail
    have ha := kmem_cache_alloc_effect st hinv
    cases ho : (kmem_cache_alloc st).1 with
    | none =>
      rw [bulk_succ_none st n acc ho]
      have hC := ha.2.1 ho
      have hcan2 : CanFree (kmem_cache_alloc st).2 acc := by
        intro j
        rw [hC.2 j]
        exact hcan j
      have hrb := rollbackFree_effect acc (kmem_cache_alloc st).2 ha.1 hcan2
      refine ⟨hrb.1, ?_, ?_⟩
      · intro j
        have h1 := hrb.2.1 j
        have h2 := hC.2 j
        show inuseOf (rollbackFree (kmem_cache_alloc st).2 acc) j +
          acc.count j = inuseOf st j
        omega
      · have h1 := hrb.2.2
        have h2 := hC.1
        show totalInuse (rollbackFree (kmem_cache_alloc st).2 acc) +
          acc.length = totalInuse st
        omega
    | some oid =>
      rw [bulk_succ_some st n acc oid ho] at hfail ⊢
      have hS := ha.2.2 oid ho
      have hcan2 : CanFree (kmem_cache_alloc st).2 (oid :: acc) := by
        intro j
        by_cases hj : j = oid
        · have h1 := hcan j
          have h2 : (oid :: acc).count j = acc.count j + 1 := by
            simp [List.count_cons, hj]
          have h3 : inuseOf (kmem_cache_alloc st).2 j = inuseOf st j + 1 := by
            rw [hj]
            exact hS.2.1
          omega
        · have h1 := hcan j
          have h2 : (oid :: acc).count j = acc.count j := by
            simp [List.count_cons, Ne.symm hj]
          have h3 := hS.2.2 j hj
          omega
      have hmain := ih (kmem_cache_alloc st).2 (oid :: acc) ha.1 hcan2 hfail
      refine ⟨hmain.1, ?_, ?_⟩
      · intro j
        have h1 := hmain.2.1 j
        by_cases hj : j = oid
        · have h2 : (oid :: acc).count j = acc.count j + 1 := by
            simp [List.count_cons, hj]
          have h3 : inuseOf (kmem_cache_alloc st).2 j = inuseOf st j + 1 := by
            rw [hj]
            exact hS.2.1
          omega
        · have h2 : (oid :: acc).count j = acc.count j := by
            simp [List.count_cons, Ne.symm hj]
          have h3 := hS.2.2 j hj
          omega
      · have h1 := hmain.2.2
        have h2 := hS.1
        simp only [List.length_cons] at h1
        omega

/-- C3: after any sequence of `kmem_cache_alloc` and `kmem_cache_free`
calls on a cache created with a positive objects-per-slab count, every slab
sits on the list its in-use count dictates — `inuse = num` on the full
list, `0 < inuse < num` on the partial list, `inuse = 0` on the free list —
and slab identities are distinct across the three lists, so each slab is on
exactly one list. -/
theorem C3_slab_list_classification (num budget : Nat) (ops : List CacheOp)
    (hnum : 1 ≤ num) :
    (∀ s ∈ (runCacheOps (initCache num budget) ops).slabsFull,
      s.inuse = num) ∧
    (∀ s ∈ (runCacheOps (initCache num budget) ops).slabsPart,
      0 < s.inuse ∧ s.inuse < num) ∧
    (∀ s ∈ (runCacheOps (initCache num budget) ops).slabsFree,
      s.inuse = 0) ∧
    ((allSlabs (runCacheOps (initCache num budget) ops)).map Slab.id).Nodup := by
  have hinv := runCacheOps_inv ops (initCache num budget)
    (initCache_inv num budget hnum)
  have hn : (runCacheOps (initCache num budget) ops).num = num :=
    runCacheOps_num ops (initCache num budget)
  refine ⟨?_, ?_, ?_, hinv.2.2.2.2.2.1⟩
  · intro s hs
    have h1 := hinv.2.1 s hs
    rw [← hn]
    exact h1
  · intro s hs
    have h1 := hinv.2.2.1 s hs
    rw [← hn]
    exact h1
  · intro s hs
    exact hinv.2.2.2.1 s hs

theorem C3_witness :
    1 ≤ 2 ∧
    ((∀ s ∈ (runCacheOps (initCache 2 2)
        [CacheOp.alloc, CacheOp.alloc, CacheOp.alloc,
         CacheOp.free 0, CacheOp.free 1]).slabsFull, s.inuse = 2) ∧
     (∀ s ∈ (runCacheOps (initCache 2 2)
        [CacheOp.alloc, CacheOp.alloc, CacheOp.alloc,
         CacheOp.free 0, CacheOp.free 1]).slabsPart,
        0 < s.inuse ∧ s.inuse < 2) ∧
     (∀ s ∈ (runCacheOps (initCache 2 2)
        [CacheOp.alloc, CacheOp.alloc, CacheOp.alloc,
         CacheOp.free 0, CacheOp.free 1]).slabsFree, s.inuse = 0) ∧
     ((allSlabs (runCacheOps (initCache 2 2)
        [CacheOp.alloc, CacheOp.alloc, CacheOp.alloc,
         CacheOp.free 0, CacheOp.free 1])).map Slab.id).Nodup) :=
  ⟨by decide, C3_slab_list_classification 2 2
    [CacheOp.alloc, CacheOp.alloc, CacheOp.alloc,
     CacheOp.free 0, CacheOp.free 1] (by decide)⟩

/-- C9: when a bulk allocation fails mid-sequence it frees everything it
had already obtained, so the cache offers the caller the same objects as
before the call — the total live count and every slab's live count are
restored (all-or-nothing). -/
theorem C9_bulk_rollback_all_or_nothing (st : CacheState) (n : Nat)
    (hinv : CacheInv st)
    (hfail : (kmem_cache_alloc_bulk st n []).1 = none) :
    totalInuse (kmem_cache_alloc_bulk st n []).2 = totalInuse st ∧
    ∀ j, inuseOf (kmem_cache_alloc_bulk st n []).2 j = inuseOf st j := by
  have h := bulk_none_counts n st [] hinv (fun j => by simp [CanFree]) hfail
  constructor
  · have h1 := h.2.2
    simp only [List.length_nil] at h1
    omega
  · intro j
    have h1 := h.2.1 j
    simp only [List.count_nil] at h1
    omega

theorem C9_witness :
    CacheInv (initCache 2 1) ∧
    (kmem_cache_alloc_bulk (initCache 2 1) 3 []).1 = none ∧
    totalInuse (kmem_cache_alloc_bulk (initCache 2 1) 3 []).2 =
      totalInuse (initCache 2 1) ∧
    inuseOf (kmem_cache_alloc_bulk (initCache 2 1) 3 []).2 0 =
      inuseOf (initCache 2 1) 0 :=
  ⟨by decide, by decide,
   (C9_bulk_rollback_all_or_nothing (initCache 2 1) 3
     (by decide) (by decide)).1,
   (C9_bulk_rollback_all_or_nothing (initCache 2 1) 3
     (by decide) (by decide)).2 0⟩

end SolixOS
